import Mathlib

/-!
Verification of the voice-journal token codec (api/auth/utils.py) and
WebSocket connection registry (api/websocket/manager.py).

Python strings are modelled as lists of Unicode code points (`PyStr`),
byte strings as lists of naturals below 256 (`Bytes`).  Clock reads
(`time.time()`) are modelled by an explicit rational-valued `now`
parameter; the two reads inside `create_access_token` are modelled as
the same instant.  `settings.SECRET_KEY.encode()` is the `key : Bytes`
parameter; `settings.ALGORITHM` is the constant "HS256" and
`settings.ACCESS_TOKEN_EXPIRE_MINUTES` the constant 30, as in
api/config.py.
-/

namespace VoiceJournal

abbrev PyStr := List Nat

abbrev Bytes := List Nat

/-- Code points of a Lean string literal, used to write Python `str` values. -/
def strLit (s : String) : PyStr := s.data.map Char.toNat

/-- Python `int()` applied to a rational: truncation toward zero. -/
def pyInt (q : ℚ) : ℤ := if 0 ≤ q then ⌊q⌋ else ⌈q⌉

/-! ## base64url (Python `base64.urlsafe_b64encode` / `urlsafe_b64decode`) -/
/-- The urlsafe base64 alphabet: value (0..63) to code point. -/
def b64char (n : Nat) : Nat :=
  if n < 26 then 65 + n
  else if n < 52 then 97 + (n - 26)
  else if n < 62 then 48 + (n - 52)
  else if n = 62 then 45
  else 95

/-- Code point to 6-bit value; accepts both the urlsafe and the standard
alphabet, since `urlsafe_b64decode` merely translates `-_` to `+/`. -/
def b64val (c : Nat) : Option Nat :=
  if 65 ≤ c ∧ c ≤ 90 then some (c - 65)
  else if 97 ≤ c ∧ c ≤ 122 then some (26 + (c - 97))
  else if 48 ≤ c ∧ c ≤ 57 then some (52 + (c - 48))
  else if c = 45 ∨ c = 43 then some 62
  else if c = 95 ∨ c = 47 then some 63
  else none

/-- base64url encoding with the `=` padding already stripped, exactly as
`base64.urlsafe_b64encode(x).rstrip(b'=')` produces it. -/
def b64encode : Bytes → PyStr
  | b1 :: b2 :: b3 :: rest =>
    b64char (b1 / 4) :: b64char (b1 % 4 * 16 + b2 / 16) ::
    b64char (b2 % 16 * 4 + b3 / 64) :: b64char (b3 % 64) :: b64encode rest
  | [b1, b2] => [b64char (b1 / 4), b64char (b1 % 4 * 16 + b2 / 16), b64char (b2 % 16 * 4)]
  | [b1] => [b64char (b1 / 4), b64char (b1 % 4 * 16)]
  | [] => []

/-- Reassemble bytes from a list of 6-bit values (quads give 3 bytes, a
final pair 1 byte, a final triple 2 bytes), as CPython's lenient
`binascii.a2b_base64` does. -/
def b64decodeVals : List Nat → Bytes
  | c1 :: c2 :: c3 :: c4 :: rest =>
    (c1 * 4 + c2 / 16) :: (c2 % 16 * 16 + c3 / 4) :: (c3 % 4 * 64 + c4) :: b64decodeVals rest
  | [c1, c2, c3] => [c1 * 4 + c2 / 16, c2 % 16 * 16 + c3 / 4]
  | [c1, c2] => [c1 * 4 + c2 / 16]
  | _ => []

/-- The 6-bit data values of a base64 input: characters outside the
alphabet are discarded, data stops at the first `=`. -/
def b64data : PyStr → List Nat
  | [] => []
  | c :: rest =>
    if c = 61 then []
    else
      match b64val c with
      | some v => v :: b64data rest
      | none => b64data rest

/-- Model of `base64.urlsafe_b64decode` on an already padded string, in
CPython's default lenient mode: non-ASCII input is an error (`b64decode`
ASCII-encodes `str` input first); characters outside the alphabet are
discarded; data stops at the first `=`; a leftover of exactly one data
character in the final quad is an error. -/
def b64decodeLenient (s : PyStr) : Option Bytes :=
  if s.any (fun c => 128 ≤ c) then none
  else
    let vals := b64data s
    if vals.length % 4 = 1 then none else some (b64decodeVals vals)

/-- The padding step `seg + '=' * (4 - len(seg) % 4)` from
`decode_access_token` (note: a multiple-of-4 length receives 4 pads). -/
def b64pad (s : PyStr) : PyStr := s ++ List.replicate (4 - s.length % 4) 61

/-! ## `str.split('.')` -/
/-- Python `token.split('.')`: empty segments are kept, `''.split('.')`
is `['']`. -/
def splitOnDot : PyStr → List PyStr
  | [] => [[]]
  | 46 :: rest => [] :: splitOnDot rest
  | c :: rest =>
    match splitOnDot rest with
    | h :: t => (c :: h) :: t
    | [] => [[c]]

/-! ## SHA-256 and HMAC (`hashlib.sha256`, `hmac.new(..., hashlib.sha256)`)

Machine words are naturals reduced mod `2^32`.  The round constants and
initial hash are produced from their FIPS 180-4 definitions: the first
32 bits of the fractional parts of the cube / square roots of the first
primes, computed with exact integer roots. -/
/-- Binary search for the integer cube root (largest `c` with `c^3 ≤ n`);
the fuel bound 200 exceeds the bit length of every input used. -/
def cbrtGo (n : Nat) : Nat → Nat → Nat → Nat
  | 0, lo, _ => lo
  | fuel + 1, lo, hi =>
    if hi ≤ lo + 1 then lo
    else
      let mid := (lo + hi) / 2
      if mid ^ 3 ≤ n then cbrtGo n fuel mid hi else cbrtGo n fuel lo mid

def natCbrt (n : Nat) : Nat := cbrtGo n 200 0 (n + 1)

/-- The first 64 primes, in order. -/
def primes64 : List Nat :=
  [2, 3, 5, 7, 11, 13, 17, 19, 23, 29, 31, 37, 41, 43, 47, 53,
   59, 61, 67, 71, 73, 79, 83, 89, 97, 101, 103, 107, 109, 113, 127, 131,
   137, 139, 149, 151, 157, 163, 167, 173, 179, 181, 191, 193, 197, 199, 211, 223,
   227, 229, 233, 239, 241, 251, 257, 263, 269, 271, 277, 281, 283, 293, 307, 311]

/-- SHA-256 round constants: first 32 fractional bits of the cube roots
of the first 64 primes. -/
def shaK : List Nat := primes64.map (fun p => natCbrt (p * 2 ^ 96) % 2 ^ 32)

/-- First 32 fractional bits of the square root of a prime. -/
def sqrtFrac (p : Nat) : Nat := Nat.sqrt (p * 2 ^ 64) % 2 ^ 32

def w32 (x : Nat) : Nat := x % 2 ^ 32

def rotr (n x : Nat) : Nat := (x / 2 ^ n + x % 2 ^ n * 2 ^ (32 - n)) % 2 ^ 32

def not32 (x : Nat) : Nat := x ^^^ 0xFFFFFFFF

def bigSigma0 (x : Nat) : Nat := rotr 2 x ^^^ rotr 13 x ^^^ rotr 22 x

def bigSigma1 (x : Nat) : Nat := rotr 6 x ^^^ rotr 11 x ^^^ rotr 25 x

def smallSigma0 (x : Nat) : Nat := rotr 7 x ^^^ rotr 18 x ^^^ x / 2 ^ 3

def smallSigma1 (x : Nat) : Nat := rotr 17 x ^^^ rotr 19 x ^^^ x / 2 ^ 10

def chFun (x y z : Nat) : Nat := (x &&& y) ^^^ (not32 x &&& z)

def majFun (x y z : Nat) : Nat := (x &&& y) ^^^ (x &&& z) ^^^ (y &&& z)

/-- The eight 32-bit words of a SHA-256 hash state. -/
structure Hash8 where
  a : Nat
  b : Nat
  c : Nat
  d : Nat
  e : Nat
  f : Nat
  g : Nat
  h : Nat

def initHash : Hash8 :=
  ⟨sqrtFrac 2, sqrtFrac 3, sqrtFrac 5, sqrtFrac 7,
   sqrtFrac 11, sqrtFrac 13, sqrtFrac 17, sqrtFrac 19⟩

/-- Big-endian 32-bit words of a 64-byte block. -/
def toWords : Bytes → List Nat
  | b1 :: b2 :: b3 :: b4 :: rest =>
    (b1 * 2 ^ 24 + b2 * 2 ^ 16 + b3 * 2 ^ 8 + b4) :: toWords rest
  | _ => []

/-- Extend the 16-word block to the 64-word message schedule. -/
def extendW : List Nat → Nat → List Nat
  | ws, 0 => ws
  | ws, k + 1 =>
    let t := w32 (smallSigma1 (ws.getD (ws.length - 2) 0) + ws.getD (ws.length - 7) 0 +
      smallSigma0 (ws.getD (ws.length - 15) 0) + ws.getD (ws.length - 16) 0)
    extendW (ws ++ [t]) k

def shaRound (st : Hash8) (kw : Nat × Nat) : Hash8 :=
  let t1 := w32 (st.h + bigSigma1 st.e + chFun st.e st.f st.g + kw.1 + kw.2)
  let t2 := w32 (bigSigma0 st.a + majFun st.a st.b st.c)
  ⟨w32 (t1 + t2), st.a, st.b, st.c, w32 (st.d + t1), st.e, st.f, st.g⟩

def processBlock (st : Hash8) (block : Bytes) : Hash8 :=
  let ws := extendW (toWords block) 48
  let r := (shaK.zip ws).foldl shaRound st
  ⟨w32 (st.a + r.a), w32 (st.b + r.b), w32 (st.c + r.c), w32 (st.d + r.d),
   w32 (st.e + r.e), w32 (st.f + r.f), w32 (st.g + r.g), w32 (st.h + r.h)⟩

def chunk64 (bs : Bytes) : List Bytes :=
  if h : bs = [] then [] else bs.take 64 :: chunk64 (bs.drop 64)
termination_by bs.length
decreasing_by
  simp only [List.length_drop]
  exact Nat.sub_lt (List.length_pos.mpr h) (by omega)

/-- 64-bit big-endian length field. -/
def lenBytes (n : Nat) : Bytes :=
  [n / 2 ^ 56 % 256, n / 2 ^ 48 % 256, n / 2 ^ 40 % 256, n / 2 ^ 32 % 256,
   n / 2 ^ 24 % 256, n / 2 ^ 16 % 256, n / 2 ^ 8 % 256, n % 256]

/-- SHA-256 padding: `0x80`, zeros to 56 mod 64, 64-bit bit length. -/
def shaPad (msg : Bytes) : Bytes :=
  msg ++ 128 :: (List.replicate ((64 + 56 - (msg.length + 1) % 64) % 64) 0 ++
    lenBytes (msg.length * 8))

def wordBytes (w : Nat) : Bytes := [w / 2 ^ 24 % 256, w / 2 ^ 16 % 256, w / 2 ^ 8 % 256, w % 256]

def sha256 (msg : Bytes) : Bytes :=
  let r := (chunk64 (shaPad msg)).foldl processBlock initHash
  wordBytes r.a ++ wordBytes r.b ++ wordBytes r.c ++ wordBytes r.d ++
  wordBytes r.e ++ wordBytes r.f ++ wordBytes r.g ++ wordBytes r.h

/-- HMAC as `hmac.new(key, msg, hashlib.sha256).digest()`: block size 64. -/
def hmacSha256 (key msg : Bytes) : Bytes :=
  let k0 := if 64 < key.length then sha256 key else key
  let k1 := k0 ++ List.replicate (64 - k0.length) 0
  sha256 ((k1.map (fun b => b ^^^ 0x5c)) ++ sha256 ((k1.map (fun b => b ^^^ 0x36)) ++ msg))

/-! ## UTF-8 (`str.encode()` / decoding done by `json.loads` on bytes)

`str.encode()` raises `UnicodeEncodeError` on surrogates, so encoding is
partial; decoding is CPython's strict UTF-8 decoder (no overlong forms,
no surrogates). -/
def utf8Char (c : Nat) : Option Bytes :=
  if c < 128 then some [c]
  else if c < 2048 then some [192 + c / 64, 128 + c % 64]
  else if c < 65536 then
    if 55296 ≤ c ∧ c ≤ 57343 then none
    else some [224 + c / 4096, 128 + c / 64 % 64, 128 + c % 64]
  else if c < 1114112 then
    some [240 + c / 262144, 128 + c / 4096 % 64, 128 + c / 64 % 64, 128 + c % 64]
  else none

def utf8Encode : PyStr → Option Bytes
  | [] => some []
  | c :: rest =>
    match utf8Char c, utf8Encode rest with
    | some bs, some tl => some (bs ++ tl)
    | _, _ => none

/-- Decode one scalar from the front of a strict-UTF-8 byte string. -/
def utf8Step : Bytes → Option (Nat × Bytes)
  | [] => none
  | b1 :: rest =>
    if b1 < 128 then some (b1, rest)
    else if 194 ≤ b1 ∧ b1 ≤ 223 then
      match rest with
      | b2 :: r2 =>
        if 128 ≤ b2 ∧ b2 ≤ 191 then some ((b1 - 192) * 64 + (b2 - 128), r2) else none
      | _ => none
    else if 224 ≤ b1 ∧ b1 ≤ 239 then
      match rest with
      | b2 :: b3 :: r2 =>
        if (if b1 = 224 then 160 ≤ b2 ∧ b2 ≤ 191
            else if b1 = 237 then 128 ≤ b2 ∧ b2 ≤ 159
            else 128 ≤ b2 ∧ b2 ≤ 191) ∧ 128 ≤ b3 ∧ b3 ≤ 191 then
          some ((b1 - 224) * 4096 + (b2 - 128) * 64 + (b3 - 128), r2)
        else none
      | _ => none
    else if 240 ≤ b1 ∧ b1 ≤ 244 then
      match rest with
      | b2 :: b3 :: b4 :: r2 =>
        if (if b1 = 240 then 144 ≤ b2 ∧ b2 ≤ 191
            else if b1 = 244 then 128 ≤ b2 ∧ b2 ≤ 143
            else 128 ≤ b2 ∧ b2 ≤ 191) ∧ 128 ≤ b3 ∧ b3 ≤ 191 ∧ 128 ≤ b4 ∧ b4 ≤ 191 then
          some ((b1 - 240) * 262144 + (b2 - 128) * 4096 + (b3 - 128) * 64 + (b4 - 128), r2)
        else none
      | _ => none
    else none

/-- Fuel-bounded decode loop; each successful step consumes at least one
byte, so fuel equal to the byte length never runs out. -/
def utf8Go : Nat → Bytes → Option PyStr
  | _, [] => some []
  | 0, _ :: _ => none
  | fuel + 1, s =>
    match utf8Step s with
    | some (c, rest) => (utf8Go fuel rest).map (fun t => c :: t)
    | none => none

def utf8Decode (s : Bytes) : Option PyStr := utf8Go s.length s

/-! ## JSON values (`json.dumps` with `separators=(',', ':')` and default
`ensure_ascii=True`; `json.loads`)

Values are null, booleans, integers, strings, arrays and objects — the
value universe this application serializes.  Floats and the `NaN` /
`Infinity` literals are not modelled: the parser rejects them where
CPython would produce a float.  Objects parse to their pair list in
input order; CPython collapses duplicate keys into a dict keeping the
last value, which `JsonObj.lookup` mirrors by returning the last match. -/
mutual
inductive Json : Type where
  | null : Json
  | bool : Bool → Json
  | num : Int → Json
  | str : PyStr → Json
  | arr : JsonArr → Json
  | obj : JsonObj → Json

inductive JsonArr : Type where
  | nil : JsonArr
  | cons : Json → JsonArr → JsonArr

inductive JsonObj : Type where
  | nil : JsonObj
  | cons : PyStr → Json → JsonObj → JsonObj
end

/-- Last-match association lookup: the value `dict(pairs).get(k)` sees. -/
def JsonObj.lookup (k : PyStr) : JsonObj → Option Json
  | .nil => none
  | .cons k' v t =>
    match JsonObj.lookup k t with
    | some r => some r
    | none => if k' = k then some v else none

/-- Assignment `d[k] = v` on a dict: replace in place if present, else
append. -/
def JsonObj.set : JsonObj → PyStr → Json → JsonObj
  | .nil, k, v => .cons k v .nil
  | .cons k' v' t, k, v =>
    if k' = k then .cons k' v t else .cons k' v' (JsonObj.set t k v)

def JsonObj.keys : JsonObj → List PyStr
  | .nil => []
  | .cons k _ t => k :: JsonObj.keys t

/-- Code point is a Unicode scalar value (encodable by `str.encode()`). -/
def scalarB (c : Nat) : Bool := decide (c < 1114112) && !(decide (55296 ≤ c) && decide (c ≤ 57343))

def strWF (s : PyStr) : Bool := s.all scalarB

mutual
def Json.wf : Json → Bool
  | .null => true
  | .bool _ => true
  | .num _ => true
  | .str s => strWF s
  | .arr a => JsonArr.wf a
  | .obj o => JsonObj.wf o

def JsonArr.wf : JsonArr → Bool
  | .nil => true
  | .cons v t => Json.wf v && JsonArr.wf t

def JsonObj.wf : JsonObj → Bool
  | .nil => true
  | .cons k v t => strWF k && Json.wf v && JsonObj.wf t
end

/-- A Python dict: recursively well-formed with no duplicate keys. -/
def JsonObj.dictWF (o : JsonObj) : Prop := o.wf = true ∧ o.keys.Nodup

/-! ### Serialization (`json.dumps(x, separators=(',', ':'))`) -/
def natDigits (n : Nat) : PyStr :=
  if h : n < 10 then [48 + n] else natDigits (n / 10) ++ [48 + n % 10]
termination_by n
decreasing_by exact Nat.div_lt_self (by omega) (by omega)

def serInt (i : Int) : PyStr := if i < 0 then 45 :: natDigits i.natAbs else natDigits i.natAbs

def hexDig (n : Nat) : Nat := if n < 10 then 48 + n else 87 + n

def hex4 (n : Nat) : PyStr :=
  [hexDig (n / 4096 % 16), hexDig (n / 256 % 16), hexDig (n / 16 % 16), hexDig (n % 16)]

/-- One character as `json.encoder.py_encode_basestring_ascii` writes it: short
escapes for `"` `\` and the five named controls, `\uXXXX` for the other
controls and all non-ASCII, surrogate pairs beyond the BMP. -/
def escapeChar (c : Nat) : PyStr :=
  if c = 34 then [92, 34]
  else if c = 92 then [92, 92]
  else if c = 8 then [92, 98]
  else if c = 9 then [92, 116]
  else if c = 10 then [92, 110]
  else if c = 12 then [92, 102]
  else if c = 13 then [92, 114]
  else if c < 32 then 92 :: 117 :: hex4 c
  else if c ≤ 126 then [c]
  else if c < 65536 then 92 :: 117 :: hex4 c
  else 92 :: 117 :: hex4 (55296 + (c - 65536) / 1024) ++
    (92 :: 117 :: hex4 (56320 + (c - 65536) % 1024))

def serStrBody : PyStr → PyStr
  | [] => []
  | c :: rest => escapeChar c ++ serStrBody rest

def serStr (s : PyStr) : PyStr := 34 :: serStrBody s ++ [34]

mutual
def Json.ser : Json → PyStr
  | .null => [110, 117, 108, 108]
  | .bool true => [116, 114, 117, 101]
  | .bool false => [102, 97, 108, 115, 101]
  | .num i => serInt i
  | .str s => serStr s
  | .arr a => 91 :: JsonArr.serBody a
  | .obj o => 123 :: JsonObj.serBody o

def JsonArr.serBody : JsonArr → PyStr
  | .nil => [93]
  | .cons v t => Json.ser v ++ JsonArr.serTail t

def JsonArr.serTail : JsonArr → PyStr
  | .nil => [93]
  | .cons v t => 44 :: Json.ser v ++ JsonArr.serTail t

def JsonObj.serBody : JsonObj → PyStr
  | .nil => [125]
  | .cons k v t => serStr k ++ 58 :: Json.ser v ++ JsonObj.serTail t

def JsonObj.serTail : JsonObj → PyStr
  | .nil => [125]
  | .cons k v t => 44 :: serStr k ++ 58 :: Json.ser v ++ JsonObj.serTail t
end

/-! ### Parsing (`json.loads`)

A recursive-descent parser mirroring CPython's `json.scanner` /
`json.decoder` with `strict=True`: whitespace is `space \t \n \r` at the
token positions the scanner skips it; strings reject raw control
characters and combine `\uXXXX` surrogate pairs; numbers follow
`(-?(?:0|[1-9]\d*))` (a following fraction or exponent would make a
float, which is not modelled and is rejected, as are `NaN` and
`Infinity`).  Nesting is fuel-bounded; fuel is spent only when entering
a container, and the input length plus one always suffices for anything
the serializer emits (CPython instead bounds nesting by its recursion
limit). -/
def skipWS (s : PyStr) : PyStr :=
  s.dropWhile (fun c => c = 32 ∨ c = 9 ∨ c = 10 ∨ c = 13)

def hexVal (c : Nat) : Option Nat :=
  if 48 ≤ c ∧ c ≤ 57 then some (c - 48)
  else if 97 ≤ c ∧ c ≤ 102 then some (c - 87)
  else if 65 ≤ c ∧ c ≤ 70 then some (c - 55)
  else none

def hex4Val (a b c d : Nat) : Option Nat :=
  match hexVal a, hexVal b, hexVal c, hexVal d with
  | some w, some x, some y, some z => some (w * 4096 + x * 256 + y * 16 + z)
  | _, _, _, _ => none

/-- Look-ahead after a high-surrogate `\uXXXX` escape (value `n`): a
following `\u` escape that decodes to a low surrogate is combined; a
following `\u` with bad or missing hex digits aborts (as
`_decode_uXXXX` raises); anything else leaves the lone value `n`. -/
def escSurrogate (n : Nat) : PyStr → Option (Nat × PyStr)
  | 92 :: 117 :: a2 :: b2 :: c2 :: d2 :: rest2 =>
    (hex4Val a2 b2 c2 d2).bind (fun m =>
      if 56320 ≤ m ∧ m ≤ 57343 then
        some (65536 + (n - 55296) * 1024 + (m - 56320), rest2)
      else some (n, 92 :: 117 :: a2 :: b2 :: c2 :: d2 :: rest2))
  | 92 :: 117 :: _ => none
  | other => some (n, other)

/-- Parse one string escape, positioned just after the backslash
(`json.decoder.py_scanstring`): named escapes, `\uXXXX`, and high/low
surrogate pair combination with CPython's exact look-ahead rules. -/
def escStep : PyStr → Option (Nat × PyStr)
  | 117 :: a :: b :: c :: d :: rest =>
    (hex4Val a b c d).bind (fun n =>
      if 55296 ≤ n ∧ n ≤ 56319 then escSurrogate n rest else some (n, rest))
  | 117 :: _ => none
  | e :: rest =>
    if e = 34 then some (34, rest)
    else if e = 92 then some (92, rest)
    else if e = 47 then some (47, rest)
    else if e = 98 then some (8, rest)
    else if e = 102 then some (12, rest)
    else if e = 110 then some (10, rest)
    else if e = 114 then some (13, rest)
    else if e = 116 then some (9, rest)
    else none
  | [] => none

/-- One step of the string scanner: `some (none, rest)` is the closing
quote, `some (some c, rest)` one decoded character. -/
def strStep : PyStr → Option (Option Nat × PyStr)
  | [] => none
  | c :: rest =>
    if c = 34 then some (none, rest)
    else if c = 92 then (escStep rest).map (fun p => (some p.1, p.2))
    else if c < 32 then none
    else some (some c, rest)

def parseStrGo : Nat → PyStr → Option (PyStr × PyStr)
  | 0, _ => none
  | fuel + 1, s =>
    match strStep s with
    | none => none
    | some (none, rest) => some ([], rest)
    | some (some c, rest) => (parseStrGo fuel rest).map (fun p => (c :: p.1, p.2))

/-- Parse a string body (opening quote already consumed) up to and over
the closing quote.  Every step consumes input, so length-as-fuel is
never the limiting factor. -/
def parseStrBody (s : PyStr) : Option (PyStr × PyStr) := parseStrGo (s.length + 1) s

def parseDigitsGo : PyStr → Nat → Nat × PyStr
  | c :: rest, acc =>
    if 48 ≤ c ∧ c ≤ 57 then parseDigitsGo rest (acc * 10 + (c - 48)) else (acc, c :: rest)
  | [], acc => (acc, [])

/-- The integer part of CPython's `NUMBER_RE`: `0|[1-9]\d*`. -/
def parseNat : PyStr → Option (Nat × PyStr)
  | [] => none
  | c :: rest =>
    if c = 48 then some (0, rest)
    else if 49 ≤ c ∧ c ≤ 57 then some (parseDigitsGo rest (c - 48))
    else none

/-- Reject a following fraction or exponent (a float literal, which this
model does not cover). -/
def floatGuard (v : Int) : PyStr → Option (Json × PyStr)
  | [] => some (.num v, [])
  | c :: rest =>
    if c = 46 ∨ c = 101 ∨ c = 69 then none else some (.num v, c :: rest)

def parseNumTok : PyStr → Option (Json × PyStr)
  | [] => none
  | c :: rest =>
    if c = 45 then
      match parseNat rest with
      | some (n, r) => floatGuard (-(n : Int)) r
      | none => none
    else
      match parseNat (c :: rest) with
      | some (n, r) => floatGuard (n : Int) r
      | none => none

/-- Consume an expected literal (the scanner's slice comparison against
`null`, `true`, `false`). -/
def expectLit : PyStr → PyStr → Option PyStr
  | [], s => some s
  | l :: lt, c :: rest => if c = l then expectLit lt rest else none
  | _ :: _, [] => none

mutual
def parseValue : Nat → PyStr → Option (Json × PyStr)
  | 0, _ => none
  | fuel + 1, s =>
    match s with
    | [] => none
    | c :: rest =>
      if c = 34 then (parseStrBody rest).map (fun p => (.str p.1, p.2))
      else if c = 91 then (parseArrBody fuel (skipWS rest)).map (fun p => (.arr p.1, p.2))
      else if c = 123 then (parseObjBody fuel (skipWS rest)).map (fun p => (.obj p.1, p.2))
      else if c = 110 then (expectLit [117, 108, 108] rest).map (fun r => (.null, r))
      else if c = 116 then (expectLit [114, 117, 101] rest).map (fun r => (.bool true, r))
      else if c = 102 then (expectLit [97, 108, 115, 101] rest).map (fun r => (.bool false, r))
      else parseNumTok (c :: rest)

def parseArrBody : Nat → PyStr → Option (JsonArr × PyStr)
  | 0, _ => none
  | _ + 1, [] => none
  | fuel + 1, c :: rest =>
    if c = 93 then some (.nil, rest)
    else
      (parseValue fuel (c :: rest)).bind (fun p =>
        (parseArrRest fuel (skipWS p.2)).bind (fun q =>
          some (.cons p.1 q.1, q.2)))

def parseArrRest : Nat → PyStr → Option (JsonArr × PyStr)
  | 0, _ => none
  | _ + 1, [] => none
  | fuel + 1, c :: rest =>
    if c = 93 then some (.nil, rest)
    else if c = 44 then
      (parseValue fuel (skipWS rest)).bind (fun p =>
        (parseArrRest fuel (skipWS p.2)).bind (fun q =>
          some (.cons p.1 q.1, q.2)))
    else none

def parseMember : Nat → PyStr → Option (PyStr × Json × PyStr)
  | 0, _ => none
  | _ + 1, [] => none
  | fuel + 1, c :: rest =>
    if c = 34 then
      (parseStrBody rest).bind (fun pk =>
        match skipWS pk.2 with
        | [] => none
        | c2 :: r2 =>
          if c2 = 58 then
            (parseValue fuel (skipWS r2)).map (fun pv => (pk.1, pv.1, pv.2))
          else none)
    else none

def parseObjBody : Nat → PyStr → Option (JsonObj × PyStr)
  | 0, _ => none
  | _ + 1, [] => none
  | fuel + 1, c :: rest =>
    if c = 125 then some (.nil, rest)
    else
      (parseMember fuel (c :: rest)).bind (fun p =>
        (parseObjRest fuel (skipWS p.2.2)).bind (fun q =>
          some (.cons p.1 p.2.1 q.1, q.2)))

def parseObjRest : Nat → PyStr → Option (JsonObj × PyStr)
  | 0, _ => none
  | _ + 1, [] => none
  | fuel + 1, c :: rest =>
    if c = 125 then some (.nil, rest)
    else if c = 44 then
      (parseMember fuel (skipWS rest)).bind (fun p =>
        (parseObjRest fuel (skipWS p.2.2)).bind (fun q =>
          some (.cons p.1 p.2.1 q.1, q.2)))
    else none
end

/-- Python `json.loads` on a string: optional surrounding whitespace, one value,
nothing else. -/
def jsonLoads (s : PyStr) : Option Json :=
  let t := skipWS s
  match parseValue (t.length + 1) t with
  | some (j, rest) => if skipWS rest = [] then some j else none
  | none => none

/-- Python `json.loads` on bytes: strip a UTF-8 BOM, decode strictly as UTF-8,
then parse.  (CPython's UTF-16/32 autodetection heuristics for byte
input are not modelled.) -/
def jsonLoadsBytes (bs : Bytes) : Option Json :=
  let bs' := if bs.take 3 = [239, 187, 191] then bs.drop 3 else bs
  match utf8Decode bs' with
  | some s => jsonLoads s
  | none => none

/-! ## Token codec (api/auth/utils.py)

`create_access_token(data, expires_delta)` and
`decode_access_token(token)`.  The clock is the explicit `now : ℚ`
(the two `time.time()` reads inside `create_access_token` are modelled
as one instant); `key` is `settings.SECRET_KEY.encode()`.  Issuing is
partial because `.encode()` raises on claim strings containing
surrogates. -/
def jwtHeader : Json :=
  .obj (.cons (strLit "alg") (.str (strLit "HS256"))
    (.cons (strLit "typ") (.str (strLit "JWT")) .nil))

/-- The dict `to_encode` after the `update`: `exp = int(now + ttl)`, `iat =
int(now)` are written last, overwriting any caller-supplied values.  A
zero `expires_delta` is falsy in Python, so it falls back to the
configured 30 minutes, as does `None`. -/
def ttlOf : Option ℚ → ℚ
  | some d => if d = 0 then 1800 else d
  | none => 1800

def tokenPayload (data : JsonObj) (expiresDelta : Option ℚ) (now : ℚ) : JsonObj :=
  (data.set (strLit "exp") (.num (pyInt (now + ttlOf expiresDelta)))).set
    (strLit "iat") (.num (pyInt now))

def create_access_token (data : JsonObj) (expiresDelta : Option ℚ) (now : ℚ)
    (key : Bytes) : Option PyStr :=
  (utf8Encode (Json.ser jwtHeader)).bind (fun hb =>
    (utf8Encode (Json.ser (.obj (tokenPayload data expiresDelta now)))).bind (fun pb =>
      (utf8Encode (b64encode hb ++ 46 :: b64encode pb)).map (fun mb =>
        (b64encode hb ++ 46 :: b64encode pb) ++ 46 :: b64encode (hmacSha256 key mb))))

/-- The expiry test `payload.get("exp", 0) < time.time()`: Python compares booleans as
integers and raises `TypeError` (caught, yielding `None`) on any other
non-numeric claim value. -/
def jsonAsNum : Json → Option ℚ
  | .num n => some (n : ℚ)
  | .bool b => some (if b then 1 else 0)
  | _ => none

/-- The expiry test on an already decoded payload object:
`payload.get("exp", 0) < time.time()` yields `None`, otherwise the
payload is returned. -/
def expCheck (payload : JsonObj) (now : ℚ) : Option JsonObj :=
  match payload.lookup (strLit "exp") with
  | none => if 0 < now then none else some payload
  | some v =>
    (jsonAsNum v).bind (fun q => if q < now then none else some payload)

def decode_access_token (key : Bytes) (token : PyStr) (now : ℚ) : Option JsonObj :=
  match splitOnDot token with
  | [header64, payload64, sig64] =>
    (utf8Encode (header64 ++ 46 :: payload64)).bind (fun mb =>
      (b64decodeLenient (b64pad sig64)).bind (fun actual =>
        if hmacSha256 key mb = actual then
          (b64decodeLenient (b64pad payload64)).bind (fun pbytes =>
            match jsonLoadsBytes pbytes with
            | some (.obj payload) => expCheck payload now
            | _ => none)
        else none))
  | _ => none

/-! ## Token-consuming callers (api/auth/dependencies.py,
api/websocket/router.py), modelled up to their `sub` checks; the UUID
parse and the database lookup that follow are outside this model. -/
def jsonTruthy : Json → Bool
  | .null => false
  | .bool b => b
  | .num n => decide (n ≠ 0)
  | .str s => decide (s ≠ [])
  | .arr .nil => false
  | .arr (.cons _ _) => true
  | .obj .nil => false
  | .obj (.cons _ _ _) => true

/-- Caller `get_current_user`: 401 (`none`) unless the token decodes and
`payload.get("sub")` is not `None` (a JSON null reads back as `None`). -/
def getCurrentUserSub (key : Bytes) (token : PyStr) (now : ℚ) : Option Json :=
  match decode_access_token key token now with
  | none => none
  | some payload =>
    match payload.lookup (strLit "sub") with
    | none => none
    | some .null => none
    | some v => some v

/-- Caller `authenticate_websocket`: rejects a missing or empty token, a falsy
payload (the empty dict), and a falsy `sub`. -/
def authenticateWebsocket (key : Bytes) (token : Option PyStr) (now : ℚ) : Option Json :=
  match token with
  | none => none
  | some t =>
    if t = [] then none
    else
      match decode_access_token key t now with
      | none => none
      | some JsonObj.nil => none
      | some payload =>
        match payload.lookup (strLit "sub") with
        | none => none
        | some v => if jsonTruthy v then some v else none

/-! ## Connection registry (api/websocket/manager.py)

`ConnectionManager` state: the forward dict `_connections : user_id →
set of websockets`, the reverse dict `_websocket_to_user`, and the
`_running` flag of the keepalive task.  Dicts are insertion-ordered
association lists; sets are duplicate-free lists in insertion order.
WebSocket objects are opaque identifiers (naturals); user ids are
Python strings, whose truthiness (`if user_id`) is non-emptiness.
The model is sequential-atomic: each operation runs to completion
(matching the single-threaded asyncio execution of the source, where no
`await` interrupts the map updates), and after `_stop_keepalive` the
cancelled task counts as done, so `_start_keepalive`'s `is None or
done()` guard always passes when `_running` is false.  The transport
`accept()` in `connect` and the actual frame sends are outside the
registry state; which sends succeed is the oracle `ok`. -/
def alookup {α β : Type} [DecidableEq α] : List (α × β) → α → Option β
  | [], _ => none
  | (k', v) :: t, k => if k' = k then some v else alookup t k

/-- Assignment `d[k] = v`: replace in place, or append a new entry. -/
def aset {α β : Type} [DecidableEq α] : List (α × β) → α → β → List (α × β)
  | [], k, v => [(k, v)]
  | (k', v') :: t, k, v => if k' = k then (k', v) :: t else (k', v') :: aset t k v

/-- Deletion `del d[k]`, or a successful `d.pop(k)`. -/
def aremove {α β : Type} [DecidableEq α] : List (α × β) → α → List (α × β)
  | [], _ => []
  | (k', v') :: t, k => if k' = k then t else (k', v') :: aremove t k

inductive KAEvent : Type where
  | start : KAEvent
  | stop : KAEvent
deriving DecidableEq

structure CMState where
  connections : List (PyStr × List Nat)
  websocketToUser : List (Nat × PyStr)
  running : Bool
deriving DecidableEq

def initState : CMState := ⟨[], [], false⟩

namespace ConnectionManager

/-- Method `connect` (post-`accept()`): register the socket in both maps, then
start the keepalive loop if it is not running. -/
def connect (s : CMState) (ws : Nat) (uid : PyStr) : CMState × List KAEvent :=
  let cur := (alookup s.connections uid).getD []
  let conns' := aset s.connections uid (if ws ∈ cur then cur else cur ++ [ws])
  let rev' := aset s.websocketToUser ws uid
  if s.running = false then
    (⟨conns', rev', true⟩, [KAEvent.start])
  else
    (⟨conns', rev', s.running⟩, [])

/-- Method `disconnect`: pop the reverse entry; if a truthy user id was found
and is a forward key, discard the socket from its set, dropping the set
entry if it empties; stop the keepalive loop if the whole registry is
now empty. -/
def disconnect (s : CMState) (ws : Nat) : CMState × List KAEvent :=
  let rev' := aremove s.websocketToUser ws
  let conns' :=
    match alookup s.websocketToUser ws with
    | none => s.connections
    | some uid =>
      if uid ≠ [] ∧ (alookup s.connections uid).isSome then
        let ns := ((alookup s.connections uid).getD []).filter (fun w => w ≠ ws)
        if ns = [] then aremove s.connections uid else aset s.connections uid ns
      else s.connections
  if conns' = [] ∧ s.running = true then
    (⟨conns', rev', false⟩, [KAEvent.stop])
  else
    (⟨conns', rev', s.running⟩, [])

/-- Method `send_to_user`: no connections is a plain 0; otherwise attempt every
socket in the user's set (`ok` tells which `send_json` calls succeed),
count the successes, then `disconnect` every failed socket. -/
def sendToUser (s : CMState) (uid : PyStr) (ok : Nat → Bool) :
    CMState × Nat × List KAEvent :=
  match alookup s.connections uid with
  | none => (s, 0, [])
  | some conns =>
    let sent := (conns.filter ok).length
    let failed := conns.filter (fun w => ok w = false)
    let r := failed.foldl (fun acc w =>
      let d := disconnect acc.1 w
      (d.1, acc.2 ++ d.2)) (s, ([] : List KAEvent))
    (r.1, sent, r.2)

end ConnectionManager

/-- Registry states produced by the manager's own operations, from the
freshly constructed manager. -/
inductive Reachable : CMState → Prop
  | init : Reachable initState
  | connect (s : CMState) (ws : Nat) (uid : PyStr) :
      Reachable s → Reachable (ConnectionManager.connect s ws uid).1
  | disconnect (s : CMState) (ws : Nat) :
      Reachable s → Reachable (ConnectionManager.disconnect s ws).1
  | send (s : CMState) (uid : PyStr) (ok : Nat → Bool) :
      Reachable s → Reachable (ConnectionManager.sendToUser s uid ok).1

/-! ## Proof devices: measures and invariants used only by the lemmas -/

/-- The 6-bit value sequence underlying `b64encode`. -/
def b64vals : Bytes → List Nat
  | b1 :: b2 :: b3 :: rest =>
    b1 / 4 :: (b1 % 4 * 16 + b2 / 16) :: (b2 % 16 * 4 + b3 / 64) :: b3 % 64 :: b64vals rest
  | [b1, b2] => [b1 / 4, b1 % 4 * 16 + b2 / 16, b2 % 16 * 4]
  | [b1] => [b1 / 4, b1 % 4 * 16]
  | [] => []

/-- The continuations a serialized number is actually followed by (end
of input or a structural delimiter): nothing that the greedy digit
scanner or the fraction/exponent guard would consume. -/
def restSafe : PyStr → Prop
  | [] => True
  | c :: _ => ¬(48 ≤ c ∧ c ≤ 57) ∧ c ≠ 46 ∧ c ≠ 101 ∧ c ≠ 69

/-! Nesting fuel sufficient to parse the serialization: one unit per
container entered, mirroring the parser's decrements. -/
mutual
def fuelJ : Json → Nat
  | .null => 1
  | .bool _ => 1
  | .num _ => 1
  | .str _ => 1
  | .arr a => 1 + fuelA a
  | .obj o => 1 + fuelO o

def fuelA : JsonArr → Nat
  | .nil => 1
  | .cons v t => 1 + max (fuelJ v) (fuelA t)

def fuelO : JsonObj → Nat
  | .nil => 1
  | .cons _ v t => 1 + max (1 + fuelJ v) (fuelO t)
end

def wsChar (c : Nat) : Prop := c = 32 ∨ c = 9 ∨ c = 10 ∨ c = 13

/-- The token `create_access_token` produces on its success path. -/
def jwtToken (data : JsonObj) (delta : Option ℚ) (now : ℚ) (key : Bytes) : PyStr :=
  b64encode (Json.ser jwtHeader) ++ 46 ::
    (b64encode (Json.ser (.obj (tokenPayload data delta now))) ++ 46 ::
      b64encode (hmacSha256 key (b64encode (Json.ser jwtHeader) ++ 46 ::
        b64encode (Json.ser (.obj (tokenPayload data delta now))))))

/-- The keepalive flag tracks registry non-emptiness. -/
abbrev FlagInv (s : CMState) : Prop := s.running = true ↔ s.connections ≠ []

/-- The spec's registry invariant: a socket is in the forward set of a
user iff the reverse map records that user for it, and no forward entry
holds an empty set. -/
abbrev MapsConsistent (s : CMState) : Prop :=
  (∀ p ∈ s.connections, ∀ w ∈ p.2, alookup s.websocketToUser w = some p.1) ∧
  (∀ q ∈ s.websocketToUser, q.1 ∈ (alookup s.connections q.2).getD []) ∧
  (∀ p ∈ s.connections, p.2 ≠ [])

/-- The full registry invariant: mutually consistent maps, nonempty
duplicate-free socket sets, truthy user ids, and dict-like key
uniqueness in both maps. -/
abbrev Inv (s : CMState) : Prop :=
  (∀ p ∈ s.connections, p.1 ≠ [] ∧ p.2 ≠ [] ∧ p.2.Nodup ∧
    ∀ w ∈ p.2, alookup s.websocketToUser w = some p.1) ∧
  (∀ q ∈ s.websocketToUser, q.1 ∈ (alookup s.connections q.2).getD []) ∧
  (s.connections.map Prod.fst).Nodup ∧
  (s.websocketToUser.map Prod.fst).Nodup

/-- The socket loop `send_to_user` runs over the failed sockets. -/
def sendLoop (F : List Nat) (p : CMState × List KAEvent) : CMState × List KAEvent :=
  F.foldl (fun a w =>
    ((ConnectionManager.disconnect a.1 w).1, a.2 ++ (ConnectionManager.disconnect a.1 w).2)) p

/-- A registry with two sockets registered to the same user. -/
def twoConnState : CMState :=
  (ConnectionManager.connect (ConnectionManager.connect initState 1 (strLit "u")).1
    2 (strLit "u")).1


/-! ## Lemmas: SHA-256 and HMAC -/

theorem sha256_length (msg : Bytes) : (sha256 msg).length = 32 := by
  simp [sha256, wordBytes]

theorem wordBytes_lt (w : Nat) : ∀ b ∈ wordBytes w, b < 256 := by
  intro b hb
  simp only [wordBytes, List.mem_cons, List.not_mem_nil, or_false] at hb
  rcases hb with h | h | h | h <;> subst h <;> exact Nat.mod_lt _ (by omega)

theorem sha256_bytes_lt (msg : Bytes) : ∀ b ∈ sha256 msg, b < 256 := by
  intro b hb
  simp only [sha256, List.mem_append] at hb
  rcases hb with (((((((h | h) | h) | h) | h) | h) | h) | h) <;> exact wordBytes_lt _ _ h

theorem hmac_length (key msg : Bytes) : (hmacSha256 key msg).length = 32 := by
  simp [hmacSha256, sha256_length]

theorem hmac_bytes_lt (key msg : Bytes) : ∀ b ∈ hmacSha256 key msg, b < 256 := by
  simp only [hmacSha256]
  exact sha256_bytes_lt _

/-! ## Lemmas: UTF-8 -/

theorem utf8Encode_ascii (s : PyStr) (h : ∀ c ∈ s, c < 128) : utf8Encode s = some s := by
  induction s with
  | nil => rfl
  | cons c rest ih =>
    have hc : c < 128 := h c (by simp)
    have := ih (fun x hx => h x (by simp [hx]))
    simp [utf8Encode, utf8Char, hc, this]

theorem utf8Go_ascii (s : Bytes) : ∀ fuel, s.length ≤ fuel → (∀ c ∈ s, c < 128) →
    utf8Go fuel s = some s := by
  induction s with
  | nil => intro fuel _ _; cases fuel <;> rfl
  | cons c rest ih =>
    intro fuel hf h
    match fuel, hf with
    | fuel + 1, hf =>
      have hc : c < 128 := h c (by simp)
      have ht := ih fuel (by simpa using hf) (fun x hx => h x (by simp [hx]))
      simp [utf8Go, utf8Step, hc, ht]

theorem utf8Decode_ascii (s : Bytes) (h : ∀ c ∈ s, c < 128) : utf8Decode s = some s :=
  utf8Go_ascii s s.length le_rfl h

/-! ## Lemmas: base64 -/

theorem b64char_props (n : Nat) : b64char n ≠ 46 ∧ b64char n ≠ 61 ∧ b64char n < 128 := by
  unfold b64char
  split <;> [skip; split] <;> [omega; omega; skip]
  split <;> [omega; split <;> omega]

theorem b64encode_eq_map : ∀ bs : Bytes, b64encode bs = (b64vals bs).map b64char
  | [] => rfl
  | [b1] => rfl
  | [b1, b2] => rfl
  | b1 :: b2 :: b3 :: rest => by
    simp only [b64encode, b64vals, List.map_cons, List.cons.injEq, true_and]
    exact b64encode_eq_map rest

theorem b64vals_lt : ∀ bs : Bytes, (∀ b ∈ bs, b < 256) → ∀ v ∈ b64vals bs, v < 64
  | [] => by intro _ v hv; simp [b64vals] at hv
  | [b1] => by
    intro h v hv
    have h1 : b1 < 256 := h b1 (by simp)
    simp [b64vals] at hv
    rcases hv with h' | h' <;> omega
  | [b1, b2] => by
    intro h v hv
    have h1 : b1 < 256 := h b1 (by simp)
    have h2 : b2 < 256 := h b2 (by simp)
    simp [b64vals] at hv
    rcases hv with h' | h' | h' <;> omega
  | b1 :: b2 :: b3 :: rest => by
    intro h v hv
    have h1 : b1 < 256 := h b1 (by simp)
    have h2 : b2 < 256 := h b2 (by simp)
    have h3 : b3 < 256 := h b3 (by simp)
    simp only [b64vals, List.mem_cons] at hv
    rcases hv with h' | h' | h' | h' | h'
    · omega
    · omega
    · omega
    · omega
    · exact b64vals_lt rest (fun b hb => h b (by simp [hb])) v h'

theorem b64val_b64char : ∀ n, n < 64 → b64val (b64char n) = some n := by decide

theorem b64decodeVals_b64vals : ∀ bs : Bytes, (∀ b ∈ bs, b < 256) →
    b64decodeVals (b64vals bs) = bs
  | [] => by intro _; rfl
  | [b1] => by
    intro h
    have h1 : b1 < 256 := h b1 (by simp)
    simp [b64vals, b64decodeVals]
    omega
  | [b1, b2] => by
    intro h
    have h1 : b1 < 256 := h b1 (by simp)
    have h2 : b2 < 256 := h b2 (by simp)
    simp [b64vals, b64decodeVals]
    constructor <;> omega
  | b1 :: b2 :: b3 :: rest => by
    intro h
    have h1 : b1 < 256 := h b1 (by simp)
    have h2 : b2 < 256 := h b2 (by simp)
    have h3 : b3 < 256 := h b3 (by simp)
    have ih := b64decodeVals_b64vals rest (fun b hb => h b (by simp [hb]))
    simp only [b64vals, b64decodeVals, ih, List.cons.injEq, and_true]
    omega

theorem b64vals_len_mod : ∀ bs : Bytes, (b64vals bs).length % 4 ≠ 1
  | [] => by simp [b64vals]
  | [b1] => by simp [b64vals]
  | [b1, b2] => by simp [b64vals]
  | b1 :: b2 :: b3 :: rest => by
    have ih := b64vals_len_mod rest
    simp only [b64vals, List.length_cons]
    omega

theorem b64data_pad (k : Nat) : b64data (List.replicate k 61) = [] := by
  cases k with
  | zero => rfl
  | succ n => simp [List.replicate_succ, b64data]

theorem b64data_map_pad (l : List Nat) (h : ∀ v ∈ l, v < 64) (k : Nat) :
    b64data (l.map b64char ++ List.replicate k 61) = l := by
  induction l with
  | nil => simpa using b64data_pad k
  | cons v t ih =>
    have hv : v < 64 := h v (by simp)
    have hne : b64char v ≠ 61 := (b64char_props v).2.1
    simp only [List.map_cons, List.cons_append, b64data, hne, if_false,
      b64val_b64char v hv, List.cons.injEq, true_and]
    exact ih (fun x hx => h x (by simp [hx]))

/-- The base64 roundtrip actually used by `decode_access_token`: decoding
the padded form of an encoded byte string recovers it. -/
theorem b64_roundtrip (bs : Bytes) (h : ∀ b ∈ bs, b < 256) :
    b64decodeLenient (b64pad (b64encode bs)) = some bs := by
  have hmap := b64encode_eq_map bs
  have hlt := b64vals_lt bs h
  have hascii : ∀ c ∈ b64pad (b64encode bs), c < 128 := by
    intro c hc
    simp only [b64pad, List.mem_append] at hc
    rcases hc with hc | hc
    · rw [hmap] at hc
      obtain ⟨v, _, rfl⟩ := List.mem_map.mp hc
      exact (b64char_props v).2.2
    · have := List.eq_of_mem_replicate hc
      omega
  have hdata : b64data (b64pad (b64encode bs)) = b64vals bs := by
    unfold b64pad
    rw [hmap]
    exact b64data_map_pad _ hlt _
  unfold b64decodeLenient
  rw [List.any_eq_false.mpr (fun c hc => by simpa using Nat.not_le.mpr (hascii c hc))]
  simp only [Bool.false_eq_true, if_false, hdata]
  rw [if_neg (b64vals_len_mod bs), b64decodeVals_b64vals bs h]

/-! ## Lemmas: `split('.')` -/
theorem splitOnDot_no_dot (a : PyStr) (ha : 46 ∉ a) : splitOnDot a = [a] := by
  induction a with
  | nil => rfl
  | cons x t ih =>
    have hx : x ≠ 46 := fun h => ha (by simp [h])
    have iht := ih (fun h => ha (List.mem_cons_of_mem _ h))
    simp [splitOnDot, hx, iht]

theorem splitOnDot_append (a rest : PyStr) (ha : 46 ∉ a) :
    splitOnDot (a ++ 46 :: rest) = a :: splitOnDot rest := by
  induction a with
  | nil => simp [splitOnDot]
  | cons x t ih =>
    have hx : x ≠ 46 := fun h => ha (by simp [h])
    have iht := ih (fun h => ha (List.mem_cons_of_mem _ h))
    simp [splitOnDot, hx, iht]

theorem splitOnDot_three (a b c : PyStr) (ha : 46 ∉ a) (hb : 46 ∉ b) (hc : 46 ∉ c) :
    splitOnDot (a ++ 46 :: (b ++ 46 :: c)) = [a, b, c] := by
  rw [splitOnDot_append _ _ ha, splitOnDot_append _ _ hb, splitOnDot_no_dot _ hc]

/-! ## Lemmas: integer literals -/

theorem natDigits_all_digit : ∀ n : Nat, ∀ c ∈ natDigits n, 48 ≤ c ∧ c ≤ 57 := by
  intro n
  induction n using Nat.strong_induction_on with
  | _ n ih =>
    intro c hc
    by_cases h : n < 10
    · rw [natDigits, dif_pos h] at hc
      simp at hc
      omega
    · rw [natDigits, dif_neg h] at hc
      rcases List.mem_append.mp hc with h' | h'
      · exact ih (n / 10) (Nat.div_lt_self (by omega) (by omega)) c h'
      · simp at h'
        omega

theorem natDigits_cons : ∀ n : Nat, ∃ d t, natDigits n = d :: t ∧ 48 ≤ d ∧ d ≤ 57 ∧
    (1 ≤ n → 49 ≤ d) := by
  intro n
  induction n using Nat.strong_induction_on with
  | _ n ih =>
    by_cases h : n < 10
    · refine ⟨48 + n, [], ?_, by omega, by omega, by omega⟩
      rw [natDigits, dif_pos h]
    · obtain ⟨d, t, ht, h1, h2, h3⟩ := ih (n / 10) (Nat.div_lt_self (by omega) (by omega))
      refine ⟨d, t ++ [48 + n % 10], ?_, h1, h2, fun _ => h3 (by omega)⟩
      rw [natDigits, dif_neg h, ht]
      rfl

theorem foldl_natDigits : ∀ n acc : Nat,
    (natDigits n).foldl (fun a c => a * 10 + (c - 48)) acc =
      acc * 10 ^ (natDigits n).length + n := by
  intro n
  induction n using Nat.strong_induction_on with
  | _ n ih =>
    intro acc
    by_cases h : n < 10
    · rw [natDigits, dif_pos h]
      simp [List.foldl]
    · have ihd := ih (n / 10) (Nat.div_lt_self (by omega) (by omega))
      rw [natDigits, dif_neg h, List.foldl_append, List.length_append, ihd]
      simp [List.foldl]
      rw [pow_succ]
      have : acc * (10 ^ (natDigits (n / 10)).length * 10) =
          acc * 10 ^ (natDigits (n / 10)).length * 10 := by ring
      rw [this]
      omega

theorem parseDigitsGo_append (ds : PyStr) (rest : PyStr) (acc : Nat)
    (hd : ∀ c ∈ ds, 48 ≤ c ∧ c ≤ 57) (hr : restSafe rest) :
    parseDigitsGo (ds ++ rest) acc = (ds.foldl (fun a c => a * 10 + (c - 48)) acc, rest) := by
  induction ds generalizing acc with
  | nil =>
    cases rest with
    | nil => rfl
    | cons c t =>
      simp only [restSafe] at hr
      simp [parseDigitsGo]
      omega
  | cons c t ih =>
    have hc := hd c (by simp)
    simp only [List.cons_append, parseDigitsGo, List.foldl]
    rw [if_pos (by omega)]
    exact ih _ (fun x hx => hd x (by simp [hx]))

theorem parseNat_natDigits (n : Nat) (rest : PyStr) (hr : restSafe rest) :
    parseNat (natDigits n ++ rest) = some (n, rest) := by
  obtain ⟨d, t, ht, h1, h2, h3⟩ := natDigits_cons n
  have hall := natDigits_all_digit n
  by_cases hz : n = 0
  · subst hz
    have : natDigits 0 = [48] := by rw [natDigits]; rfl
    rw [this]
    simp [parseNat]
  · rw [ht, List.cons_append, parseNat]
    have hd49 : 49 ≤ d := h3 (by omega)
    rw [if_neg (by omega), if_pos (by omega)]
    have htd : ∀ c ∈ t, 48 ≤ c ∧ c ≤ 57 := by
      intro c hc
      exact hall c (by rw [ht]; exact List.mem_cons_of_mem _ hc)
    rw [parseDigitsGo_append t rest (d - 48) htd hr]
    have hf := foldl_natDigits n 0
    rw [ht] at hf
    simp [List.foldl] at hf
    rw [hf]

theorem parseNumTok_serInt (i : Int) (rest : PyStr) (hr : restSafe rest) :
    parseNumTok (serInt i ++ rest) = some (.num i, rest) := by
  have hguard : floatGuard i rest = some (.num i, rest) := by
    cases rest with
    | nil => rfl
    | cons c t =>
      simp only [restSafe] at hr
      simp only [floatGuard]
      rw [if_neg (by omega)]
  by_cases hneg : i < 0
  · rw [serInt, if_pos hneg, List.cons_append, parseNumTok, if_pos rfl]
    rw [parseNat_natDigits i.natAbs rest hr]
    show floatGuard (-(i.natAbs : Int)) rest = some (.num i, rest)
    have hi : -(i.natAbs : Int) = i := by omega
    rw [hi, hguard]
  · rw [serInt, if_neg hneg]
    obtain ⟨d, t, ht, h1, h2, _⟩ := natDigits_cons i.natAbs
    have hd45 : d ≠ 45 := by omega
    rw [ht, List.cons_append, parseNumTok, if_neg hd45, ← List.cons_append, ← ht]
    rw [parseNat_natDigits i.natAbs rest hr]
    show floatGuard ((i.natAbs : Int)) rest = some (.num i, rest)
    have hi : ((i.natAbs : Int)) = i := by omega
    rw [hi, hguard]

/-! ## Lemmas: string literals -/
theorem hexVal_hexDig : ∀ d, d < 16 → hexVal (hexDig d) = some d := by decide

theorem hex4Val_hex4 (n : Nat) (h : n < 65536) :
    hex4Val (hexDig (n / 4096 % 16)) (hexDig (n / 256 % 16)) (hexDig (n / 16 % 16))
      (hexDig (n % 16)) = some n := by
  rw [hex4Val, hexVal_hexDig _ (Nat.mod_lt _ (by omega)), hexVal_hexDig _ (Nat.mod_lt _ (by omega)),
    hexVal_hexDig _ (Nat.mod_lt _ (by omega)), hexVal_hexDig _ (Nat.mod_lt _ (by omega))]
  show some _ = some n
  congr 1
  omega

theorem escStep_u (n : Nat) (hn : n < 65536) (hns : ¬(55296 ≤ n ∧ n ≤ 56319)) (rest : PyStr) :
    escStep (117 :: (hex4 n ++ rest)) = some (n, rest) := by
  unfold hex4
  simp only [List.cons_append, List.nil_append]
  simp only [escStep, hex4Val_hex4 n hn, Option.some_bind, if_neg hns]

theorem escSurrogate_pair (n m : Nat) (hm : m < 65536) (ha : 56320 ≤ m) (hb : m ≤ 57343)
    (rest : PyStr) : escSurrogate n (92 :: 117 :: (hex4 m ++ rest)) =
      some (65536 + (n - 55296) * 1024 + (m - 56320), rest) := by
  unfold hex4
  simp only [List.cons_append, List.nil_append]
  rw [escSurrogate, hex4Val_hex4 _ hm, Option.some_bind]
  simp only [if_pos (And.intro ha hb)]

theorem escStep_pair (c : Nat) (h1 : 65536 ≤ c) (h2 : c < 1114112) (rest : PyStr) :
    escStep (117 :: (hex4 (55296 + (c - 65536) / 1024) ++
      (92 :: 117 :: (hex4 (56320 + (c - 65536) % 1024) ++ rest)))) = some (c, rest) := by
  have hhi : 55296 + (c - 65536) / 1024 < 65536 := by omega
  conv_lhs => rw [hex4]
  simp only [List.cons_append, List.nil_append]
  rw [escStep, hex4Val_hex4 _ hhi, Option.some_bind]
  simp only [if_pos (show 55296 ≤ 55296 + (c - 65536) / 1024 ∧
    55296 + (c - 65536) / 1024 ≤ 56319 by omega)]
  rw [escSurrogate_pair _ _ (by omega) (by omega) (by omega) rest]
  have hv : 65536 + (55296 + (c - 65536) / 1024 - 55296) * 1024 +
      (56320 + (c - 65536) % 1024 - 56320) = c := by omega
  rw [hv]

theorem strStep_escape (c : Nat) (hsc : scalarB c = true) (rest : PyStr) :
    strStep (escapeChar c ++ rest) = some (some c, rest) := by
  have hc : c < 1114112 ∧ (c < 55296 ∨ 57343 < c) := by
    simpa [scalarB, Decidable.not_and_iff_or_not] using hsc
  by_cases h1 : c = 34
  · subst h1; simp [escapeChar, strStep, escStep]
  by_cases h2 : c = 92
  · subst h2; simp [escapeChar, strStep, escStep]
  by_cases h3 : c = 8
  · subst h3; simp [escapeChar, strStep, escStep]
  by_cases h4 : c = 9
  · subst h4; simp [escapeChar, strStep, escStep]
  by_cases h5 : c = 10
  · subst h5; simp [escapeChar, strStep, escStep]
  by_cases h6 : c = 12
  · subst h6; simp [escapeChar, strStep, escStep]
  by_cases h7 : c = 13
  · subst h7; simp [escapeChar, strStep, escStep]
  by_cases h8 : c < 32
  · -- control characters: a plain \uXXXX escape
    have he : escapeChar c = 92 :: 117 :: hex4 c := by
      simp only [escapeChar, h1, h2, h3, h4, h5, h6, h7, if_false, if_pos h8]
    rw [he]
    simp only [List.cons_append]
    rw [strStep]
    rw [if_neg (by omega), if_pos rfl]
    rw [escStep_u c (by omega) (by omega) rest]
    rfl
  by_cases h9 : c ≤ 126
  · -- printable ASCII emitted verbatim
    have he : escapeChar c = [c] := by
      simp only [escapeChar, h1, h2, h3, h4, h5, h6, h7, h8, if_false, if_pos h9]
    rw [he]
    simp only [List.cons_append, List.nil_append]
    rw [strStep]
    rw [if_neg h1, if_neg h2, if_neg (by omega)]
  by_cases h10 : c < 65536
  · -- BMP non-ASCII: \uXXXX
    have he : escapeChar c = 92 :: 117 :: hex4 c := by
      simp only [escapeChar, h1, h2, h3, h4, h5, h6, h7, h8, h9, if_false, if_pos h10]
    rw [he]
    simp only [List.cons_append]
    rw [strStep]
    rw [if_neg (by omega), if_pos rfl]
    rw [escStep_u c (by omega) (by omega) rest]
    rfl
  · -- astral plane: surrogate pair
    have he : escapeChar c = 92 :: 117 :: hex4 (55296 + (c - 65536) / 1024) ++
        (92 :: 117 :: hex4 (56320 + (c - 65536) % 1024)) := by
      simp only [escapeChar, h1, h2, h3, h4, h5, h6, h7, h8, h9, h10, if_false]
    rw [he]
    simp only [List.cons_append, List.append_assoc, List.nil_append]
    rw [strStep]
    rw [if_neg (by omega), if_pos rfl]
    rw [escStep_pair c (by omega) (by omega) rest]
    rfl

theorem parseStrGo_ser (s : PyStr) : ∀ fuel rest, strWF s = true → s.length + 1 ≤ fuel →
    parseStrGo fuel (serStrBody s ++ 34 :: rest) = some (s, rest) := by
  induction s with
  | nil =>
    intro fuel rest _ hf
    match fuel, hf with
    | fuel + 1, _ =>
      show parseStrGo (fuel + 1) (34 :: rest) = some ([], rest)
      simp [parseStrGo, strStep]
  | cons c t ih =>
    intro fuel rest hwf hf
    have hc : scalarB c = true := by
      have := List.all_eq_true.mp hwf c (by simp)
      simpa using this
    have hwt : strWF t = true := by
      apply List.all_eq_true.mpr
      intro x hx
      exact List.all_eq_true.mp hwf x (by simp [hx])
    match fuel, hf with
    | fuel + 1, hf =>
      have hstep : serStrBody (c :: t) ++ 34 :: rest =
          escapeChar c ++ (serStrBody t ++ 34 :: rest) := by
        simp [serStrBody, List.append_assoc]
      have hih := ih fuel rest hwt (by simpa using hf)
      rw [hstep]
      simp [parseStrGo, strStep_escape c hc, hih]

theorem escapeChar_len (c : Nat) : 1 ≤ (escapeChar c).length := by
  unfold escapeChar
  repeat' split
  all_goals simp [hex4]

theorem serStrBody_len (s : PyStr) : s.length ≤ (serStrBody s).length := by
  induction s with
  | nil => simp [serStrBody]
  | cons c t ih =>
    have := escapeChar_len c
    simp only [serStrBody, List.length_append, List.length_cons]
    omega

/-- The string roundtrip used inside the value parser. -/
theorem parseStrBody_ser (s : PyStr) (rest : PyStr) (hwf : strWF s = true) :
    parseStrBody (serStrBody s ++ 34 :: rest) = some (s, rest) := by
  apply parseStrGo_ser s _ rest hwf
  have := serStrBody_len s
  simp only [List.length_append, List.length_cons]
  omega

/-! ## Lemmas: the value parser inverts the serializer -/

theorem fuelJ_pos (j : Json) : 1 ≤ fuelJ j := by
  cases j <;> simp [fuelJ]

theorem fuelA_pos (a : JsonArr) : 1 ≤ fuelA a := by
  cases a <;> simp [fuelA]

theorem fuelO_pos (o : JsonObj) : 1 ≤ fuelO o := by
  cases o <;> simp [fuelO]

theorem skipWS_cons (c : Nat) (l : PyStr) (h : ¬wsChar c) : skipWS (c :: l) = c :: l := by
  rw [skipWS, List.dropWhile_cons]
  simp only [wsChar] at h
  rw [if_neg (by simpa using h)]

/-- The first character a serialized value can start with. -/
theorem ser_head (j : Json) : ∃ c cs, Json.ser j = c :: cs ∧
    (c = 34 ∨ c = 91 ∨ c = 123 ∨ c = 110 ∨ c = 116 ∨ c = 102 ∨ c = 45 ∨ (48 ≤ c ∧ c ≤ 57)) := by
  cases j with
  | null => exact ⟨110, _, rfl, by omega⟩
  | bool b =>
    cases b with
    | false => exact ⟨102, _, rfl, by omega⟩
    | true => exact ⟨116, _, rfl, by omega⟩
  | num i =>
    by_cases hneg : i < 0
    · refine ⟨45, natDigits i.natAbs, ?_, by omega⟩
      simp [Json.ser, serInt, hneg]
    · obtain ⟨d, t, ht, h1, h2, _⟩ := natDigits_cons i.natAbs
      refine ⟨d, t, ?_, by omega⟩
      simp [Json.ser, serInt, hneg, ht]
  | str s => exact ⟨34, _, rfl, by omega⟩
  | arr a => exact ⟨91, _, rfl, by omega⟩
  | obj o => exact ⟨123, _, rfl, by omega⟩

theorem restSafe_serTailA (t : JsonArr) (rest : PyStr) :
    restSafe (JsonArr.serTail t ++ rest) := by
  cases t <;> simp [JsonArr.serTail, restSafe]

theorem restSafe_serTailO (o : JsonObj) (rest : PyStr) :
    restSafe (JsonObj.serTail o ++ rest) := by
  cases o <;> simp [JsonObj.serTail, restSafe]

theorem skipWS_ser (v : Json) (rest : PyStr) :
    skipWS (Json.ser v ++ rest) = Json.ser v ++ rest := by
  obtain ⟨c, cs, hc, hclass⟩ := ser_head v
  rw [hc, List.cons_append, skipWS_cons _ _ (by simp only [wsChar]; omega)]

theorem skipWS_serTailA (t : JsonArr) (rest : PyStr) :
    skipWS (JsonArr.serTail t ++ rest) = JsonArr.serTail t ++ rest := by
  cases t <;>
    simp only [JsonArr.serTail, List.cons_append, List.nil_append] <;>
    exact skipWS_cons _ _ (by simp only [wsChar]; omega)

theorem skipWS_serTailO (o : JsonObj) (rest : PyStr) :
    skipWS (JsonObj.serTail o ++ rest) = JsonObj.serTail o ++ rest := by
  cases o <;>
    simp only [JsonObj.serTail, List.cons_append, List.nil_append] <;>
    exact skipWS_cons _ _ (by simp only [wsChar]; omega)

theorem skipWS_serStr (k : PyStr) (rest : PyStr) :
    skipWS (serStr k ++ rest) = serStr k ++ rest := by
  simp only [serStr, List.cons_append]
  exact skipWS_cons _ _ (by simp only [wsChar]; omega)

mutual

theorem parseValue_ser (j : Json) : ∀ (fuel : Nat) (rest : PyStr), Json.wf j = true →
    fuelJ j ≤ fuel → restSafe rest → parseValue fuel (Json.ser j ++ rest) = some (j, rest) := by
  cases j with
  | null =>
    intro fuel rest _ hf _
    cases fuel with
    | zero => exact absurd hf (by simp only [fuelJ, fuelA, fuelO]; omega)
    | succ fuel => simp [Json.ser, parseValue, expectLit]
  | bool b =>
    intro fuel rest _ hf _
    cases fuel with
    | zero => exact absurd hf (by simp only [fuelJ, fuelA, fuelO]; omega)
    | succ fuel => cases b <;> simp [Json.ser, parseValue, expectLit]
  | num i =>
    intro fuel rest _ hf hr
    cases fuel with
    | zero => exact absurd hf (by simp only [fuelJ, fuelA, fuelO]; omega)
    | succ fuel =>
      by_cases hneg : i < 0
      · have hs : Json.ser (.num i) ++ rest = 45 :: (natDigits i.natAbs ++ rest) := by
          simp [Json.ser, serInt, hneg]
        rw [hs, parseValue]
        rw [if_neg (by omega), if_neg (by omega), if_neg (by omega), if_neg (by omega),
          if_neg (by omega), if_neg (by omega)]
        rw [show 45 :: (natDigits i.natAbs ++ rest) = serInt i ++ rest by simp [serInt, hneg]]
        exact parseNumTok_serInt i rest hr
      · obtain ⟨d, t, ht, h1, h2, _⟩ := natDigits_cons i.natAbs
        have hs : Json.ser (.num i) ++ rest = d :: (t ++ rest) := by
          simp [Json.ser, serInt, hneg, ht]
        rw [hs, parseValue]
        rw [if_neg (by omega), if_neg (by omega), if_neg (by omega), if_neg (by omega),
          if_neg (by omega), if_neg (by omega)]
        rw [show d :: (t ++ rest) = serInt i ++ rest by simp [serInt, hneg, ht]]
        exact parseNumTok_serInt i rest hr
  | str s =>
    intro fuel rest hwf hf _
    cases fuel with
    | zero => exact absurd hf (by simp only [fuelJ, fuelA, fuelO]; omega)
    | succ fuel =>
      have hs : Json.ser (.str s) ++ rest = 34 :: (serStrBody s ++ (34 :: rest)) := by
        simp [Json.ser, serStr]
      have hb := parseStrBody_ser s rest (by simpa [Json.wf] using hwf)
      rw [hs, parseValue]
      simp [hb]
  | arr a =>
    intro fuel rest hwf hf _
    cases fuel with
    | zero => exact absurd hf (by simp only [fuelJ, fuelA, fuelO]; omega)
    | succ fuel =>
      have hf2 : fuelA a ≤ fuel := by
        simp only [fuelJ] at hf
        omega
      have hs : Json.ser (.arr a) ++ rest = 91 :: (JsonArr.serBody a ++ rest) := by
        simp [Json.ser]
      have hb := parseArrBody_ser a fuel rest (by simpa [Json.wf] using hwf) hf2
      rw [hs, parseValue]
      simp [skipWS_serBodyA, hb]
  | obj o =>
    intro fuel rest hwf hf _
    cases fuel with
    | zero => exact absurd hf (by simp only [fuelJ, fuelA, fuelO]; omega)
    | succ fuel =>
      have hf2 : fuelO o ≤ fuel := by
        simp only [fuelJ] at hf
        omega
      have hs : Json.ser (.obj o) ++ rest = 123 :: (JsonObj.serBody o ++ rest) := by
        simp [Json.ser]
      have hb := parseObjBody_ser o fuel rest (by simpa [Json.wf] using hwf) hf2
      rw [hs, parseValue]
      simp [skipWS_serBodyO, hb]

theorem skipWS_serBodyA (a : JsonArr) (rest : PyStr) :
    skipWS (JsonArr.serBody a ++ rest) = JsonArr.serBody a ++ rest := by
  cases a with
  | nil =>
    simp only [JsonArr.serBody, List.cons_append, List.nil_append]
    exact skipWS_cons _ _ (by simp only [wsChar]; omega)
  | cons v t =>
    simp only [JsonArr.serBody, List.append_assoc]
    exact skipWS_ser v _

theorem skipWS_serBodyO (o : JsonObj) (rest : PyStr) :
    skipWS (JsonObj.serBody o ++ rest) = JsonObj.serBody o ++ rest := by
  cases o with
  | nil =>
    simp only [JsonObj.serBody, List.cons_append, List.nil_append]
    exact skipWS_cons _ _ (by simp only [wsChar]; omega)
  | cons k v t =>
    simp only [JsonObj.serBody, List.append_assoc]
    exact skipWS_serStr k _

theorem parseArrBody_ser (a : JsonArr) : ∀ (fuel : Nat) (rest : PyStr), JsonArr.wf a = true →
    fuelA a ≤ fuel → parseArrBody fuel (JsonArr.serBody a ++ rest) = some (a, rest) := by
  cases a with
  | nil =>
    intro fuel rest _ hf
    cases fuel with
    | zero => exact absurd hf (by simp only [fuelJ, fuelA, fuelO]; omega)
    | succ fuel => simp [JsonArr.serBody, parseArrBody]
  | cons v t =>
    intro fuel rest hwf hf
    cases fuel with
    | zero => exact absurd hf (by simp only [fuelJ, fuelA, fuelO]; omega)
    | succ fuel =>
      have hw : Json.wf v = true ∧ JsonArr.wf t = true := by
        simpa [JsonArr.wf, Bool.and_eq_true] using hwf
      have hfv : fuelJ v ≤ fuel := by
        simp only [fuelA] at hf
        omega
      have hft : fuelA t ≤ fuel := by
        simp only [fuelA] at hf
        omega
      have hs : JsonArr.serBody (.cons v t) ++ rest =
          Json.ser v ++ (JsonArr.serTail t ++ rest) := by
        simp [JsonArr.serBody, List.append_assoc]
      obtain ⟨c, cs, hc, hclass⟩ := ser_head v
      have hv := parseValue_ser v fuel _ hw.1 hfv (restSafe_serTailA t rest)
      have hrt := parseArrRest_ser t fuel rest hw.2 hft
      rw [hs, hc, List.cons_append, parseArrBody, if_neg (show ¬(c = 93) by omega),
        ← List.cons_append, ← hc, hv]
      simp [skipWS_serTailA, hrt]

theorem parseArrRest_ser (t : JsonArr) : ∀ (fuel : Nat) (rest : PyStr), JsonArr.wf t = true →
    fuelA t ≤ fuel → parseArrRest fuel (JsonArr.serTail t ++ rest) = some (t, rest) := by
  cases t with
  | nil =>
    intro fuel rest _ hf
    cases fuel with
    | zero => exact absurd hf (by simp only [fuelJ, fuelA, fuelO]; omega)
    | succ fuel => simp [JsonArr.serTail, parseArrRest]
  | cons v t =>
    intro fuel rest hwf hf
    cases fuel with
    | zero => exact absurd hf (by simp only [fuelJ, fuelA, fuelO]; omega)
    | succ fuel =>
      have hw : Json.wf v = true ∧ JsonArr.wf t = true := by
        simpa [JsonArr.wf, Bool.and_eq_true] using hwf
      have hfv : fuelJ v ≤ fuel := by
        simp only [fuelA] at hf
        omega
      have hft : fuelA t ≤ fuel := by
        simp only [fuelA] at hf
        omega
      have hs : JsonArr.serTail (.cons v t) ++ rest =
          44 :: (Json.ser v ++ (JsonArr.serTail t ++ rest)) := by
        simp [JsonArr.serTail, List.append_assoc]
      have hv := parseValue_ser v fuel _ hw.1 hfv (restSafe_serTailA t rest)
      have hrt := parseArrRest_ser t fuel rest hw.2 hft
      rw [hs, parseArrRest]
      rw [if_neg (by omega), if_pos rfl, skipWS_ser, hv]
      simp [skipWS_serTailA, hrt]

theorem parseMember_ser (k : PyStr) (v : Json) : ∀ (fuel : Nat) (rest : PyStr),
    strWF k = true → Json.wf v = true → 1 + fuelJ v ≤ fuel → restSafe rest →
    parseMember fuel (serStr k ++ (58 :: (Json.ser v ++ rest))) = some (k, v, rest) := by
  intro fuel rest hk hv hf hr
  cases fuel with
  | zero => exact absurd hf (by omega)
  | succ fuel =>
    have hfv : fuelJ v ≤ fuel := by omega
    have hs : serStr k ++ (58 :: (Json.ser v ++ rest)) =
        34 :: (serStrBody k ++ (34 :: (58 :: (Json.ser v ++ rest)))) := by
      simp [serStr, List.append_assoc]
    have hb := parseStrBody_ser k (58 :: (Json.ser v ++ rest)) hk
    have h58 : skipWS (58 :: (Json.ser v ++ rest)) = 58 :: (Json.ser v ++ rest) :=
      skipWS_cons _ _ (by simp only [wsChar]; omega)
    have hpv := parseValue_ser v fuel rest hv hfv hr
    rw [hs, parseMember]
    simp [hb, h58, skipWS_ser, hpv]

theorem parseObjBody_ser (o : JsonObj) : ∀ (fuel : Nat) (rest : PyStr), JsonObj.wf o = true →
    fuelO o ≤ fuel → parseObjBody fuel (JsonObj.serBody o ++ rest) = some (o, rest) := by
  cases o with
  | nil =>
    intro fuel rest _ hf
    cases fuel with
    | zero => exact absurd hf (by simp only [fuelJ, fuelA, fuelO]; omega)
    | succ fuel => simp [JsonObj.serBody, parseObjBody]
  | cons k v t =>
    intro fuel rest hwf hf
    cases fuel with
    | zero => exact absurd hf (by simp only [fuelJ, fuelA, fuelO]; omega)
    | succ fuel =>
      have hw : strWF k = true ∧ Json.wf v = true ∧ JsonObj.wf t = true := by
        simpa [JsonObj.wf, Bool.and_eq_true, and_assoc] using hwf
      have hfv : 1 + fuelJ v ≤ fuel := by
        simp only [fuelO] at hf
        omega
      have hft : fuelO t ≤ fuel := by
        simp only [fuelO] at hf
        omega
      have hs : JsonObj.serBody (.cons k v t) ++ rest =
          34 :: (serStrBody k ++ (34 :: (58 :: (Json.ser v ++ (JsonObj.serTail t ++ rest))))) := by
        simp [JsonObj.serBody, serStr, List.append_assoc]
      have hmem := parseMember_ser k v fuel (JsonObj.serTail t ++ rest) hw.1 hw.2.1 hfv
        (restSafe_serTailO t rest)
      rw [show serStr k ++ (58 :: (Json.ser v ++ (JsonObj.serTail t ++ rest))) =
        34 :: (serStrBody k ++ (34 :: (58 :: (Json.ser v ++ (JsonObj.serTail t ++ rest)))))
        from by simp [serStr, List.append_assoc]] at hmem
      have hrt := parseObjRest_ser t fuel rest hw.2.2 hft
      rw [hs, parseObjBody, if_neg (by omega), hmem]
      simp [skipWS_serTailO, hrt]

theorem parseObjRest_ser (t : JsonObj) : ∀ (fuel : Nat) (rest : PyStr), JsonObj.wf t = true →
    fuelO t ≤ fuel → parseObjRest fuel (JsonObj.serTail t ++ rest) = some (t, rest) := by
  cases t with
  | nil =>
    intro fuel rest _ hf
    cases fuel with
    | zero => exact absurd hf (by simp only [fuelJ, fuelA, fuelO]; omega)
    | succ fuel => simp [JsonObj.serTail, parseObjRest]
  | cons k v t =>
    intro fuel rest hwf hf
    cases fuel with
    | zero => exact absurd hf (by simp only [fuelJ, fuelA, fuelO]; omega)
    | succ fuel =>
      have hw : strWF k = true ∧ Json.wf v = true ∧ JsonObj.wf t = true := by
        simpa [JsonObj.wf, Bool.and_eq_true, and_assoc] using hwf
      have hfv : 1 + fuelJ v ≤ fuel := by
        simp only [fuelO] at hf
        omega
      have hft : fuelO t ≤ fuel := by
        simp only [fuelO] at hf
        omega
      have hs : JsonObj.serTail (.cons k v t) ++ rest =
          44 :: (serStr k ++ (58 :: (Json.ser v ++ (JsonObj.serTail t ++ rest)))) := by
        simp [JsonObj.serTail, List.append_assoc]
      have hmem := parseMember_ser k v fuel (JsonObj.serTail t ++ rest) hw.1 hw.2.1 hfv
        (restSafe_serTailO t rest)
      have hrt := parseObjRest_ser t fuel rest hw.2.2 hft
      rw [hs, parseObjRest]
      rw [if_neg (by omega), if_pos rfl, skipWS_serStr, hmem]
      simp [skipWS_serTailO, hrt]

end

theorem ser_len_pos (j : Json) : 1 ≤ (Json.ser j).length := by
  obtain ⟨c, cs, hc, _⟩ := ser_head j
  simp [hc]

theorem serTailA_len_pos (t : JsonArr) : 1 ≤ (JsonArr.serTail t).length := by
  cases t <;> simp [JsonArr.serTail]

theorem serTailO_len_pos (o : JsonObj) : 1 ≤ (JsonObj.serTail o).length := by
  cases o <;> simp [JsonObj.serTail]

theorem serStr_len (k : PyStr) : 2 ≤ (serStr k).length := by
  simp [serStr]

mutual

theorem fuelJ_le (j : Json) : fuelJ j ≤ (Json.ser j).length := by
  cases j with
  | null => simp [fuelJ, Json.ser]
  | bool b => cases b <;> simp [fuelJ, Json.ser]
  | num i => have := ser_len_pos (.num i); simp only [fuelJ]; omega
  | str s => have := ser_len_pos (.str s); simp only [fuelJ]; omega
  | arr a =>
    have h1 := fuelA_le_body a
    simp only [fuelJ, Json.ser, List.length_cons]
    omega
  | obj o =>
    have h1 := fuelO_le_body o
    simp only [fuelJ, Json.ser, List.length_cons]
    omega

theorem fuelA_le_body (a : JsonArr) : fuelA a ≤ (JsonArr.serBody a).length := by
  cases a with
  | nil => simp [fuelA, JsonArr.serBody]
  | cons v t =>
    have h1 := fuelJ_le v
    have h2 := fuelA_le_tail t
    have h3 := ser_len_pos v
    have h4 := serTailA_len_pos t
    simp only [fuelA, JsonArr.serBody, List.length_append]
    omega

theorem fuelA_le_tail (t : JsonArr) : fuelA t ≤ (JsonArr.serTail t).length := by
  cases t with
  | nil => simp [fuelA, JsonArr.serTail]
  | cons v t =>
    have h1 := fuelJ_le v
    have h2 := fuelA_le_tail t
    simp only [fuelA, JsonArr.serTail, List.length_cons, List.length_append]
    omega

theorem fuelO_le_body (o : JsonObj) : fuelO o ≤ (JsonObj.serBody o).length := by
  cases o with
  | nil => simp [fuelO, JsonObj.serBody]
  | cons k v t =>
    have h1 := fuelJ_le v
    have h2 := fuelO_le_tail t
    have h3 := serStr_len k
    have h4 := serTailO_len_pos t
    simp only [fuelO, JsonObj.serBody, List.length_append, List.length_cons]
    omega

theorem fuelO_le_tail (o : JsonObj) : fuelO o ≤ (JsonObj.serTail o).length := by
  cases o with
  | nil => simp [fuelO, JsonObj.serTail]
  | cons k v t =>
    have h1 := fuelJ_le v
    have h2 := fuelO_le_tail t
    have h3 := serStr_len k
    simp only [fuelO, JsonObj.serTail, List.length_append, List.length_cons]
    omega

end

/-- Parsing `json.loads` inverts `json.dumps` on well-formed values. -/
theorem jsonLoads_ser (j : Json) (hwf : Json.wf j = true) : jsonLoads (Json.ser j) = some j := by
  have hskip : skipWS (Json.ser j) = Json.ser j := by
    have := skipWS_ser j []
    simpa using this
  have hfuel : fuelJ j ≤ (Json.ser j).length + 1 := by
    have := fuelJ_le j
    omega
  have hp : parseValue ((Json.ser j).length + 1) (Json.ser j) = some (j, []) := by
    have := parseValue_ser j ((Json.ser j).length + 1) [] hwf hfuel (by simp [restSafe])
    simpa using this
  rw [jsonLoads]
  simp only [hskip, hp]
  rfl

theorem hexDig_lt (x : Nat) : hexDig (x % 16) < 128 := by
  unfold hexDig
  split <;> omega

theorem hex4_lt (n : Nat) : ∀ y ∈ hex4 n, y < 128 := by
  intro y hy
  simp only [hex4, List.mem_cons, List.not_mem_nil, or_false] at hy
  rcases hy with h | h | h | h <;> subst h <;> exact hexDig_lt _

theorem escapeChar_ascii (c : Nat) : ∀ y ∈ escapeChar c, y < 128 := by
  intro y hy
  by_cases h1 : c = 34
  · subst h1; simp [escapeChar] at hy; omega
  by_cases h2 : c = 92
  · subst h2; simp [escapeChar] at hy; omega
  by_cases h3 : c = 8
  · subst h3; simp [escapeChar] at hy; omega
  by_cases h4 : c = 9
  · subst h4; simp [escapeChar] at hy; omega
  by_cases h5 : c = 10
  · subst h5; simp [escapeChar] at hy; omega
  by_cases h6 : c = 12
  · subst h6; simp [escapeChar] at hy; omega
  by_cases h7 : c = 13
  · subst h7; simp [escapeChar] at hy; omega
  by_cases h8 : c < 32
  · have he : escapeChar c = 92 :: 117 :: hex4 c := by
      simp only [escapeChar, h1, h2, h3, h4, h5, h6, h7, if_false, if_pos h8]
    rw [he] at hy
    simp only [List.mem_cons] at hy
    rcases hy with h | h | h
    · omega
    · omega
    · exact hex4_lt c y h
  by_cases h9 : c ≤ 126
  · have he : escapeChar c = [c] := by
      simp only [escapeChar, h1, h2, h3, h4, h5, h6, h7, h8, if_false, if_pos h9]
    rw [he] at hy
    simp only [List.mem_cons, List.not_mem_nil, or_false] at hy
    omega
  by_cases h10 : c < 65536
  · have he : escapeChar c = 92 :: 117 :: hex4 c := by
      simp only [escapeChar, h1, h2, h3, h4, h5, h6, h7, h8, h9, if_false, if_pos h10]
    rw [he] at hy
    simp only [List.mem_cons] at hy
    rcases hy with h | h | h
    · omega
    · omega
    · exact hex4_lt c y h
  · have he : escapeChar c = 92 :: 117 :: hex4 (55296 + (c - 65536) / 1024) ++
        (92 :: 117 :: hex4 (56320 + (c - 65536) % 1024)) := by
      simp only [escapeChar, h1, h2, h3, h4, h5, h6, h7, h8, h9, h10, if_false]
    rw [he] at hy
    simp only [List.cons_append, List.mem_cons, List.mem_append] at hy
    rcases hy with h | h | h
    · omega
    · omega
    rcases h with h | h | h | h
    · exact hex4_lt _ y h
    · omega
    · omega
    · exact hex4_lt _ y h

theorem serStrBody_ascii (s : PyStr) : ∀ y ∈ serStrBody s, y < 128 := by
  induction s with
  | nil => simp [serStrBody]
  | cons c t ih =>
    intro y hy
    simp only [serStrBody, List.mem_append] at hy
    rcases hy with h | h
    · exact escapeChar_ascii c y h
    · exact ih y h

theorem serStr_ascii (k : PyStr) : ∀ y ∈ serStr k, y < 128 := by
  intro y hy
  simp only [serStr, List.mem_cons, List.mem_append, List.not_mem_nil, or_false] at hy
  rcases hy with h | h
  · rcases h with h | h
    · omega
    · exact serStrBody_ascii k y h
  · omega

theorem serInt_ascii (i : Int) : ∀ y ∈ serInt i, y < 128 := by
  intro y hy
  unfold serInt at hy
  have hd := natDigits_all_digit i.natAbs
  by_cases hneg : i < 0
  · simp only [hneg, if_true, List.mem_cons] at hy
    rcases hy with h | h
    · omega
    · have := hd y h; omega
  · simp only [hneg, if_false] at hy
    have := hd y hy; omega

mutual

theorem ser_ascii (j : Json) : ∀ y ∈ Json.ser j, y < 128 := by
  cases j with
  | null => intro y hy; simp [Json.ser] at hy; omega
  | bool b => cases b <;> (intro y hy; simp [Json.ser] at hy; omega)
  | num i => exact serInt_ascii i
  | str s => exact serStr_ascii s
  | arr a =>
    intro y hy
    simp only [Json.ser, List.mem_cons] at hy
    rcases hy with h | h
    · omega
    · exact serBodyA_ascii a y h
  | obj o =>
    intro y hy
    simp only [Json.ser, List.mem_cons] at hy
    rcases hy with h | h
    · omega
    · exact serBodyO_ascii o y h

theorem serBodyA_ascii (a : JsonArr) : ∀ y ∈ JsonArr.serBody a, y < 128 := by
  cases a with
  | nil => intro y hy; simp [JsonArr.serBody] at hy; omega
  | cons v t =>
    intro y hy
    simp only [JsonArr.serBody, List.mem_append] at hy
    rcases hy with h | h
    · exact ser_ascii v y h
    · exact serTailA_ascii t y h

theorem serTailA_ascii (t : JsonArr) : ∀ y ∈ JsonArr.serTail t, y < 128 := by
  cases t with
  | nil => intro y hy; simp [JsonArr.serTail] at hy; omega
  | cons v t =>
    intro y hy
    have he : JsonArr.serTail (.cons v t) = 44 :: (Json.ser v ++ JsonArr.serTail t) := by
      simp [JsonArr.serTail]
    rw [he] at hy
    simp only [List.mem_cons, List.mem_append] at hy
    rcases hy with h | h | h
    · omega
    · exact ser_ascii v y h
    · exact serTailA_ascii t y h

theorem serBodyO_ascii (o : JsonObj) : ∀ y ∈ JsonObj.serBody o, y < 128 := by
  cases o with
  | nil => intro y hy; simp [JsonObj.serBody] at hy; omega
  | cons k v t =>
    intro y hy
    have he : JsonObj.serBody (.cons k v t) =
        serStr k ++ (58 :: (Json.ser v ++ JsonObj.serTail t)) := by
      simp [JsonObj.serBody, List.append_assoc]
    rw [he] at hy
    simp only [List.mem_cons, List.mem_append] at hy
    rcases hy with h | h | h | h
    · exact serStr_ascii k y h
    · omega
    · exact ser_ascii v y h
    · exact serTailO_ascii t y h

theorem serTailO_ascii (o : JsonObj) : ∀ y ∈ JsonObj.serTail o, y < 128 := by
  cases o with
  | nil => intro y hy; simp [JsonObj.serTail] at hy; omega
  | cons k v t =>
    intro y hy
    have he : JsonObj.serTail (.cons k v t) =
        44 :: (serStr k ++ (58 :: (Json.ser v ++ JsonObj.serTail t))) := by
      simp [JsonObj.serTail, List.append_assoc]
    rw [he] at hy
    simp only [List.mem_cons, List.mem_append] at hy
    rcases hy with h | h | h | h | h
    · omega
    · exact serStr_ascii k y h
    · omega
    · exact ser_ascii v y h
    · exact serTailO_ascii t y h

end

/-- Parsing `json.loads` on the UTF-8 bytes of a serialized well-formed
value. -/
theorem jsonLoadsBytes_ser (j : Json) (hwf : Json.wf j = true) :
    jsonLoadsBytes (Json.ser j) = some j := by
  obtain ⟨c, cs, hc, hclass⟩ := ser_head j
  have hbom : ¬((Json.ser j).take 3 = [239, 187, 191]) := by
    intro hEq
    rw [hc, show (c :: cs).take 3 = c :: cs.take 2 from rfl] at hEq
    have h1 : c = 239 := (List.cons_eq_cons.mp hEq).1
    omega
  rw [jsonLoadsBytes]
  simp only [if_neg hbom]
  rw [utf8Decode_ascii _ (ser_ascii j)]
  exact jsonLoads_ser j hwf

/-! ## Lemmas: dict operations -/
theorem lookup_not_mem (k : PyStr) : ∀ (o : JsonObj), k ∉ o.keys →
    JsonObj.lookup k o = none := by
  intro o
  cases o with
  | nil => intro _; rfl
  | cons k' v t =>
    intro h
    simp only [JsonObj.keys, List.mem_cons] at h
    rw [JsonObj.lookup, lookup_not_mem k t (fun hm => h (Or.inr hm))]
    rw [if_neg (fun he => h (Or.inl he.symm))]

theorem lookup_set_self (k : PyStr) (v : Json) : ∀ (o : JsonObj), o.keys.Nodup →
    JsonObj.lookup k (o.set k v) = some v := by
  intro o
  cases o with
  | nil => intro _; simp [JsonObj.set, JsonObj.lookup]
  | cons k' v' t =>
    intro h
    simp only [JsonObj.keys, List.nodup_cons] at h
    by_cases he : k' = k
    · subst he
      rw [JsonObj.set, if_pos rfl, JsonObj.lookup, lookup_not_mem k' t h.1, if_pos rfl]
    · rw [JsonObj.set, if_neg he, JsonObj.lookup, lookup_set_self k v t h.2]

theorem lookup_set_ne (k' : PyStr) (v : Json) (k : PyStr) (hne : k' ≠ k) :
    ∀ (o : JsonObj), JsonObj.lookup k (o.set k' v) = JsonObj.lookup k o := by
  intro o
  cases o with
  | nil => simp [JsonObj.set, JsonObj.lookup, if_neg hne]
  | cons k'' v'' t =>
    by_cases he : k'' = k'
    · subst he
      rw [JsonObj.set, if_pos rfl, JsonObj.lookup, JsonObj.lookup]
      cases hkt : JsonObj.lookup k t <;> simp [hne]
    · rw [JsonObj.set, if_neg he, JsonObj.lookup, JsonObj.lookup,
        lookup_set_ne k' v k hne t]

theorem keys_set (k : PyStr) (v : Json) : ∀ (o : JsonObj),
    (o.set k v).keys = if k ∈ o.keys then o.keys else o.keys ++ [k] := by
  intro o
  cases o with
  | nil => simp [JsonObj.set, JsonObj.keys]
  | cons k' v' t =>
    by_cases he : k' = k
    · subst he
      simp [JsonObj.set, JsonObj.keys]
    · rw [JsonObj.set, if_neg he, JsonObj.keys, JsonObj.keys, keys_set k v t]
      by_cases hm : k ∈ t.keys
      · rw [if_pos hm, if_pos (List.mem_cons_of_mem _ hm)]
      · have hnm : ¬(k ∈ k' :: t.keys) := by
          intro hk2
          rcases List.mem_cons.mp hk2 with h1 | h2
          · exact he h1.symm
          · exact hm h2
        rw [if_neg hm, if_neg hnm, List.cons_append]

theorem nodup_keys_set (o : JsonObj) (k : PyStr) (v : Json) (h : o.keys.Nodup) :
    (o.set k v).keys.Nodup := by
  rw [keys_set]
  by_cases hm : k ∈ o.keys
  · rw [if_pos hm]; exact h
  · rw [if_neg hm]
    simp [List.nodup_append, h, hm]

theorem mem_keys_set_self (o : JsonObj) (k : PyStr) (v : Json) : k ∈ (o.set k v).keys := by
  rw [keys_set]
  by_cases hm : k ∈ o.keys
  · rw [if_pos hm]; exact hm
  · rw [if_neg hm]; simp

theorem mem_keys_set_of_mem (o : JsonObj) (k' k : PyStr) (v : Json) (h : k' ∈ o.keys) :
    k' ∈ (o.set k v).keys := by
  rw [keys_set]
  by_cases hm : k ∈ o.keys
  · rw [if_pos hm]; exact h
  · rw [if_neg hm]; simp [h]

theorem wf_set (k : PyStr) (v : Json) (hk : strWF k = true) (hv : Json.wf v = true) :
    ∀ (o : JsonObj), JsonObj.wf o = true → JsonObj.wf (o.set k v) = true := by
  intro o
  cases o with
  | nil => intro _; simp [JsonObj.set, JsonObj.wf, hk, hv]
  | cons k' v' t =>
    intro ho
    simp only [JsonObj.wf, Bool.and_eq_true] at ho
    by_cases he : k' = k
    · subst he
      rw [JsonObj.set, if_pos rfl]
      simp [JsonObj.wf, ho.1.1, hv, ho.2]
    · rw [JsonObj.set, if_neg he]
      simp [JsonObj.wf, ho.1.1, ho.1.2, wf_set k v hk hv t ho.2]

/-! ## Lemmas: the token codec -/
theorem b64encode_ascii (bs : Bytes) : ∀ c ∈ b64encode bs, c < 128 := by
  intro c hc
  rw [b64encode_eq_map] at hc
  obtain ⟨v, _, rfl⟩ := List.mem_map.mp hc
  exact (b64char_props v).2.2

theorem b64encode_no_dot (bs : Bytes) : 46 ∉ b64encode bs := by
  intro hc
  rw [b64encode_eq_map] at hc
  obtain ⟨v, _, hv⟩ := List.mem_map.mp hc
  exact (b64char_props v).1 hv

theorem strLit_exp_ne_iat : strLit "iat" ≠ strLit "exp" := by decide

theorem tokenPayload_wf (data : JsonObj) (delta : Option ℚ) (now : ℚ)
    (h : JsonObj.wf data = true) : JsonObj.wf (tokenPayload data delta now) = true := by
  apply wf_set _ _ (by decide) (by simp [Json.wf])
  exact wf_set _ _ (by decide) (by simp [Json.wf]) _ h

theorem tokenPayload_nodup (data : JsonObj) (delta : Option ℚ) (now : ℚ)
    (h : data.keys.Nodup) : (tokenPayload data delta now).keys.Nodup :=
  nodup_keys_set _ _ _ (nodup_keys_set _ _ _ h)

theorem tokenPayload_lookup_exp (data : JsonObj) (delta : Option ℚ) (now : ℚ)
    (h : data.keys.Nodup) :
    JsonObj.lookup (strLit "exp") (tokenPayload data delta now) =
      some (.num (pyInt (now + ttlOf delta))) := by
  rw [tokenPayload, lookup_set_ne _ _ _ strLit_exp_ne_iat]
  exact lookup_set_self _ _ _ h

theorem tokenPayload_lookup_iat (data : JsonObj) (delta : Option ℚ) (now : ℚ)
    (h : data.keys.Nodup) :
    JsonObj.lookup (strLit "iat") (tokenPayload data delta now) =
      some (.num (pyInt now)) := by
  rw [tokenPayload]
  exact lookup_set_self _ _ _ (nodup_keys_set _ _ _ h)

theorem tokenPayload_lookup_other (data : JsonObj) (delta : Option ℚ) (now : ℚ)
    (k : PyStr) (h1 : k ≠ strLit "exp") (h2 : k ≠ strLit "iat") :
    JsonObj.lookup k (tokenPayload data delta now) = JsonObj.lookup k data := by
  rw [tokenPayload, lookup_set_ne _ _ _ (fun he => h2 he.symm),
    lookup_set_ne _ _ _ (fun he => h1 he.symm)]

theorem msg_ascii (data : JsonObj) (delta : Option ℚ) (now : ℚ) :
    ∀ c ∈ b64encode (Json.ser jwtHeader) ++ 46 ::
      b64encode (Json.ser (.obj (tokenPayload data delta now))), c < 128 := by
  intro c hc
  rcases List.mem_append.mp hc with h | h
  · exact b64encode_ascii _ c h
  rcases List.mem_cons.mp h with h | h
  · omega
  · exact b64encode_ascii _ c h

/-- Issuing via `create_access_token` always succeeds (`json.dumps` output is pure
ASCII, so the `.encode()` calls cannot fail) and produces `jwtToken`. -/
theorem create_eq (data : JsonObj) (delta : Option ℚ) (now : ℚ) (key : Bytes) :
    create_access_token data delta now key = some (jwtToken data delta now key) := by
  have h1 := utf8Encode_ascii (Json.ser jwtHeader) (ser_ascii jwtHeader)
  have h2 := utf8Encode_ascii (Json.ser (.obj (tokenPayload data delta now))) (ser_ascii _)
  have h3 := utf8Encode_ascii _ (msg_ascii data delta now)
  simp [create_access_token, jwtToken, h1, h2, h3]

theorem decode_jwtToken (data : JsonObj) (delta : Option ℚ) (now now' : ℚ) (key : Bytes)
    (hwf : JsonObj.wf data = true) (hnd : data.keys.Nodup) :
    decode_access_token key (jwtToken data delta now key) now' =
      if (pyInt (now + ttlOf delta) : ℚ) < now' then none
      else some (tokenPayload data delta now) := by
  have hsplit : splitOnDot (jwtToken data delta now key) =
      [b64encode (Json.ser jwtHeader),
       b64encode (Json.ser (.obj (tokenPayload data delta now))),
       b64encode (hmacSha256 key (b64encode (Json.ser jwtHeader) ++ 46 ::
         b64encode (Json.ser (.obj (tokenPayload data delta now)))))] := by
    rw [jwtToken]
    exact splitOnDot_three _ _ _ (b64encode_no_dot _) (b64encode_no_dot _) (b64encode_no_dot _)
  have hmb := utf8Encode_ascii _ (msg_ascii data delta now)
  have hsig := b64_roundtrip (hmacSha256 key (b64encode (Json.ser jwtHeader) ++ 46 ::
    b64encode (Json.ser (.obj (tokenPayload data delta now))))) (fun b hb => hmac_bytes_lt _ _ b hb)
  have hpb := b64_roundtrip (Json.ser (.obj (tokenPayload data delta now)))
    (fun b hb => by have := ser_ascii (.obj (tokenPayload data delta now)) b hb; omega)
  have hpwf : Json.wf (.obj (tokenPayload data delta now)) = true := by
    simp only [Json.wf]
    exact tokenPayload_wf data delta now hwf
  have hloads := jsonLoadsBytes_ser (.obj (tokenPayload data delta now)) hpwf
  have hexp := tokenPayload_lookup_exp data delta now hnd
  rw [decode_access_token, hsplit]
  simp only [hmb, Option.some_bind, hsig, hpb, if_pos rfl, hloads, expCheck, hexp, jsonAsNum]
  rfl

/-! ## Lemmas: association lists -/
section AssocLemmas

variable {α β : Type} [DecidableEq α]

theorem alookup_aset_self : ∀ (l : List (α × β)) (k : α) (v : β),
    alookup (aset l k v) k = some v := by
  intro l k v
  induction l with
  | nil => simp [aset, alookup]
  | cons p t ih =>
    obtain ⟨k', v'⟩ := p
    by_cases he : k' = k
    · subst he
      simp [aset, alookup]
    · rw [aset, if_neg he, alookup, if_neg he]
      exact ih

theorem alookup_aset_ne : ∀ (l : List (α × β)) (k k' : α) (v : β), k' ≠ k →
    alookup (aset l k v) k' = alookup l k' := by
  intro l k k' v hne
  induction l with
  | nil => simp [aset, alookup, Ne.symm hne]
  | cons p t ih =>
    obtain ⟨k0, v0⟩ := p
    by_cases he : k0 = k
    · subst he
      rw [aset, if_pos rfl, alookup, alookup, if_neg (fun h => hne h.symm),
        if_neg (fun h => hne h.symm)]
    · rw [aset, if_neg he, alookup, alookup]
      by_cases h0 : k0 = k'
      · rw [if_pos h0, if_pos h0]
      · rw [if_neg h0, if_neg h0]
        exact ih

theorem alookup_aremove_ne : ∀ (l : List (α × β)) (k k' : α), k' ≠ k →
    alookup (aremove l k) k' = alookup l k' := by
  intro l k k' hne
  induction l with
  | nil => simp [aremove]
  | cons p t ih =>
    obtain ⟨k0, v0⟩ := p
    by_cases he : k0 = k
    · subst he
      rw [aremove, if_pos rfl, alookup, if_neg (fun h => hne h.symm)]
    · rw [aremove, if_neg he, alookup, alookup]
      by_cases h0 : k0 = k'
      · rw [if_pos h0, if_pos h0]
      · rw [if_neg h0, if_neg h0]
        exact ih

theorem aremove_of_none : ∀ (l : List (α × β)) (k : α), alookup l k = none →
    aremove l k = l := by
  intro l k h
  induction l with
  | nil => rfl
  | cons p t ih =>
    obtain ⟨k0, v0⟩ := p
    rw [alookup] at h
    by_cases he : k0 = k
    · rw [if_pos he] at h
      exact absurd h (by simp)
    · rw [if_neg he] at h
      rw [aremove, if_neg he, ih h]

theorem aremove_sublist : ∀ (l : List (α × β)) (k : α), (aremove l k).Sublist l := by
  intro l k
  induction l with
  | nil => exact List.Sublist.refl _
  | cons p t ih =>
    obtain ⟨k0, v0⟩ := p
    by_cases he : k0 = k
    · rw [aremove, if_pos he]
      exact List.sublist_cons_of_sublist _ (List.Sublist.refl _)
    · rw [aremove, if_neg he]
      exact List.Sublist.cons₂ _ ih

theorem alookup_mem : ∀ (l : List (α × β)) (k : α) (v : β), alookup l k = some v →
    (k, v) ∈ l := by
  intro l k v h
  induction l with
  | nil => simp [alookup] at h
  | cons p t ih =>
    obtain ⟨k0, v0⟩ := p
    rw [alookup] at h
    by_cases he : k0 = k
    · rw [if_pos he] at h
      subst he
      cases h
      exact List.mem_cons_self _ _
    · rw [if_neg he] at h
      exact List.mem_cons_of_mem _ (ih h)

theorem alookup_none_iff : ∀ (l : List (α × β)) (k : α),
    alookup l k = none ↔ k ∉ l.map Prod.fst := by
  intro l k
  induction l with
  | nil => simp [alookup]
  | cons p t ih =>
    obtain ⟨k0, v0⟩ := p
    rw [alookup]
    by_cases he : k0 = k
    · subst he
      simp
    · rw [if_neg he, ih, List.map_cons, List.mem_cons]
      constructor
      · intro h hk
        rcases hk with h1 | h2
        · exact he h1.symm
        · exact h h2
      · intro h h2
        exact h (Or.inr h2)

theorem mem_aremove_of_nodup : ∀ (l : List (α × β)) (k : α) (p : α × β),
    (l.map Prod.fst).Nodup → p ∈ aremove l k → p ∈ l ∧ p.1 ≠ k := by
  intro l k p hnd hp
  induction l with
  | nil => simp [aremove] at hp
  | cons q t ih =>
    obtain ⟨k0, v0⟩ := q
    rw [List.map_cons, List.nodup_cons] at hnd
    by_cases he : k0 = k
    · subst he
      rw [aremove, if_pos rfl] at hp
      refine ⟨List.mem_cons_of_mem _ hp, ?_⟩
      intro hpk
      have hmm := List.mem_map_of_mem Prod.fst hp
      rw [hpk] at hmm
      exact hnd.1 hmm
    · rw [aremove, if_neg he] at hp
      rcases List.mem_cons.mp hp with h | h
      · subst h
        exact ⟨List.mem_cons_self _ _, he⟩
      · obtain ⟨h1, h2⟩ := ih hnd.2 h
        exact ⟨List.mem_cons_of_mem _ h1, h2⟩

theorem mem_aset_of_nodup : ∀ (l : List (α × β)) (k : α) (v : β) (p : α × β),
    (l.map Prod.fst).Nodup → p ∈ aset l k v → p = (k, v) ∨ (p ∈ l ∧ p.1 ≠ k) := by
  intro l k v p hnd hp
  induction l with
  | nil =>
    rw [aset] at hp
    rcases List.mem_singleton.mp hp with h
    exact Or.inl h
  | cons q t ih =>
    obtain ⟨k0, v0⟩ := q
    rw [List.map_cons, List.nodup_cons] at hnd
    by_cases he : k0 = k
    · subst he
      rw [aset, if_pos rfl] at hp
      rcases List.mem_cons.mp hp with h | h
      · exact Or.inl h
      · refine Or.inr ⟨List.mem_cons_of_mem _ h, ?_⟩
        intro hpk
        have hmm := List.mem_map_of_mem Prod.fst h
        rw [hpk] at hmm
        exact hnd.1 hmm
    · rw [aset, if_neg he] at hp
      rcases List.mem_cons.mp hp with h | h
      · subst h
        exact Or.inr ⟨List.mem_cons_self _ _, he⟩
      · rcases ih hnd.2 h with h1 | ⟨h1, h2⟩
        · exact Or.inl h1
        · exact Or.inr ⟨List.mem_cons_of_mem _ h1, h2⟩

theorem map_fst_aset : ∀ (l : List (α × β)) (k : α) (v : β),
    (aset l k v).map Prod.fst =
      if k ∈ l.map Prod.fst then l.map Prod.fst else l.map Prod.fst ++ [k] := by
  intro l k v
  induction l with
  | nil => simp [aset]
  | cons p t ih =>
    obtain ⟨k0, v0⟩ := p
    by_cases he : k0 = k
    · subst he
      simp [aset]
    · rw [aset, if_neg he, List.map_cons, List.map_cons, ih]
      by_cases hm : k ∈ t.map Prod.fst
      · rw [if_pos hm, if_pos (List.mem_cons_of_mem _ hm)]
      · have hnm : ¬ k ∈ (k0, v0).1 :: t.map Prod.fst := by
          intro hk
          rcases List.mem_cons.mp hk with h | h
          · exact he h.symm
          · exact hm h
        rw [if_neg hm, if_neg hnm, List.cons_append]

theorem nodup_fst_aset (l : List (α × β)) (k : α) (v : β)
    (h : (l.map Prod.fst).Nodup) : ((aset l k v).map Prod.fst).Nodup := by
  rw [map_fst_aset]
  by_cases hm : k ∈ l.map Prod.fst
  · rw [if_pos hm]; exact h
  · rw [if_neg hm]
    simp [List.nodup_append, h, hm]

theorem nodup_fst_aremove (l : List (α × β)) (k : α)
    (h : (l.map Prod.fst).Nodup) : ((aremove l k).map Prod.fst).Nodup :=
  ((aremove_sublist l k).map Prod.fst).nodup h

theorem aset_ne_nil : ∀ (l : List (α × β)) (k : α) (v : β), aset l k v ≠ [] := by
  intro l k v
  cases l with
  | nil => simp [aset]
  | cons p t =>
    obtain ⟨k0, v0⟩ := p
    rw [aset]
    by_cases he : k0 = k
    · rw [if_pos he]; simp
    · rw [if_neg he]; simp

theorem alookup_aremove_self (l : List (α × β)) (k : α)
    (hnd : (l.map Prod.fst).Nodup) : alookup (aremove l k) k = none := by
  cases h : alookup (aremove l k) k with
  | none => rfl
  | some v =>
    have hm := alookup_mem _ _ _ h
    exact absurd rfl (mem_aremove_of_nodup l k (k, v) hnd hm).2

theorem alookup_some_of_mem (l : List (α × β)) (p : α × β)
    (hnd : (l.map Prod.fst).Nodup) (hp : p ∈ l) : alookup l p.1 = some p.2 := by
  induction l with
  | nil => simp at hp
  | cons q t ih =>
    obtain ⟨k0, v0⟩ := q
    rw [List.map_cons, List.nodup_cons] at hnd
    rcases List.mem_cons.mp hp with h | h
    · subst h
      rw [alookup, if_pos rfl]
    · rw [alookup]
      by_cases he : k0 = p.1
      · have hmm := List.mem_map_of_mem Prod.fst h
        rw [← he] at hmm
        exact absurd hmm hnd.1
      · rw [if_neg he]
        exact ih hnd.2 h

end AssocLemmas

/-! ## Lemmas: `int()` truncation and the ttl -/

theorem pyInt_not_lt (now d : ℚ) (hd : 1 ≤ d) : ¬ ((pyInt (now + d) : ℚ) < now) := by
  intro hlt
  by_cases hpos : 0 ≤ now + d
  · rw [pyInt, if_pos hpos] at hlt
    have h2 := Int.sub_one_lt_floor (now + d)
    linarith
  · rw [pyInt, if_neg hpos] at hlt
    have h2 := Int.le_ceil (now + d)
    linarith

theorem ttlOf_none : ttlOf none = 1800 := rfl

theorem pyInt_ofInt (n : ℤ) : pyInt (n : ℚ) = n := by
  rw [pyInt]
  by_cases h : (0 : ℚ) ≤ (n : ℚ)
  · rw [if_pos h, Int.floor_intCast]
  · rw [if_neg h, Int.ceil_intCast]

theorem ttlOf_some (d : ℚ) (hd : d ≠ 0) : ttlOf (some d) = d := by
  simp only [ttlOf]
  rw [if_neg hd]

/-! ## Lemmas: the connection registry -/

theorem inv_consistent (s : CMState) (h : Inv s) : MapsConsistent s :=
  ⟨fun p hp => (h.1 p hp).2.2.2, h.2.1, fun p hp => (h.1 p hp).2.1⟩

theorem connect_flag (s : CMState) (ws : Nat) (uid : PyStr) :
    FlagInv (ConnectionManager.connect s ws uid).1 := by
  simp only [ConnectionManager.connect, FlagInv]
  split
  · simp only []
    exact iff_of_true trivial (aset_ne_nil _ _ _)
  · rename_i hr
    have hr2 : s.running = true := by
      cases hsr : s.running
      · exact absurd hsr hr
      · rfl
    simp only []
    exact iff_of_true hr2 (aset_ne_nil _ _ _)

theorem disconnect_flag (s : CMState) (ws : Nat) (h : FlagInv s) :
    FlagInv (ConnectionManager.disconnect s ws).1 := by
  simp only [FlagInv] at h ⊢
  rcases hrev : alookup s.websocketToUser ws with _ | uid <;>
    simp only [ConnectionManager.disconnect, hrev]
  · split
    · rename_i hc
      simp only []
      exact iff_of_false (by simp) (by simp [hc.1])
    · exact h
  · by_cases hg : uid ≠ [] ∧ (alookup s.connections uid).isSome = true
    · rw [if_pos hg]
      by_cases hns : ((alookup s.connections uid).getD []).filter (fun w => w ≠ ws) = []
      · rw [if_pos hns]
        split
        · rename_i hc
          simp only []
          exact iff_of_false (by simp) (by simp [hc.1])
        · rename_i hc
          simp only []
          by_cases ha : aremove s.connections uid = []
          · have hrun : ¬ s.running = true := fun hr => hc ⟨ha, hr⟩
            exact iff_of_false hrun (by simp [ha])
          · have hsc : s.connections ≠ [] := by
              intro hn
              apply ha
              rw [hn]
              rfl
            exact iff_of_true (h.mpr hsc) ha
      · rw [if_neg hns]
        have hane := aset_ne_nil s.connections uid
          (((alookup s.connections uid).getD []).filter (fun w => w ≠ ws))
        rw [if_neg (fun hc => hane (hc : _ ∧ _).1)]
        simp only []
        have hsc : s.connections ≠ [] := by
          intro hn
          rw [hn] at hg
          simp [alookup] at hg
        exact iff_of_true (h.mpr hsc) hane
    · rw [if_neg hg]
      split
      · rename_i hc
        simp only []
        exact iff_of_false (by simp) (by simp [hc.1])
      · exact h

theorem foldl_disconnect_flag : ∀ (l : List Nat) (p : CMState × List KAEvent),
    FlagInv p.1 → FlagInv ((sendLoop l p).1) := by
  intro l
  induction l with
  | nil => intro p h; exact h
  | cons w t ih =>
    intro p h
    rw [sendLoop, List.foldl_cons]
    exact ih _ (disconnect_flag _ _ h)

theorem sendToUser_flag (s : CMState) (uid : PyStr) (ok : Nat → Bool)
    (h : FlagInv s) : FlagInv (ConnectionManager.sendToUser s uid ok).1 := by
  rcases hc : alookup s.connections uid with _ | conns <;>
    simp only [ConnectionManager.sendToUser, hc]
  · exact h
  · exact foldl_disconnect_flag _ (s, []) h

theorem reach_flag : ∀ s : CMState, Reachable s → FlagInv s := by
  intro s h
  induction h with
  | init => simp [FlagInv, initState]
  | connect s ws uid _ _ => exact connect_flag s ws uid
  | disconnect s ws _ ih => exact disconnect_flag s ws ih
  | send s uid ok _ ih => exact sendToUser_flag s uid ok ih

theorem disconnect_none (s : CMState) (ws : Nat)
    (h : alookup s.websocketToUser ws = none) :
    (ConnectionManager.disconnect s ws).1.connections = s.connections ∧
    (ConnectionManager.disconnect s ws).1.websocketToUser = s.websocketToUser := by
  simp only [ConnectionManager.disconnect, h, aremove_of_none _ _ h]
  split
  · exact ⟨rfl, rfl⟩
  · exact ⟨rfl, rfl⟩

theorem disconnect_eq_some (s : CMState) (ws : Nat) (uid : PyStr)
    (hrev : alookup s.websocketToUser ws = some uid)
    (hg : uid ≠ [] ∧ (alookup s.connections uid).isSome = true) :
    ∃ b : Bool, (ConnectionManager.disconnect s ws).1 =
      ⟨if ((alookup s.connections uid).getD []).filter (fun w => w ≠ ws) = []
         then aremove s.connections uid
         else aset s.connections uid
           (((alookup s.connections uid).getD []).filter (fun w => w ≠ ws)),
        aremove s.websocketToUser ws, b⟩ := by
  simp only [ConnectionManager.disconnect, hrev]
  repeat' split
  all_goals first
  | exact ⟨false, rfl⟩
  | exact ⟨s.running, rfl⟩

theorem disconnect_some (s : CMState) (ws : Nat) (uid : PyStr) (hInv : Inv s)
    (hrev : alookup s.websocketToUser ws = some uid) :
    Inv (ConnectionManager.disconnect s ws).1 ∧
    (ConnectionManager.disconnect s ws).1.websocketToUser = aremove s.websocketToUser ws ∧
    (alookup (ConnectionManager.disconnect s ws).1.connections uid).getD [] =
      ((alookup s.connections uid).getD []).filter (fun w => w ≠ ws) ∧
    (∀ u, u ≠ uid → alookup (ConnectionManager.disconnect s ws).1.connections u =
      alookup s.connections u) := by
  obtain ⟨hfwd, hbwd, hndc, hndr⟩ := hInv
  have hws0 := hbwd (ws, uid) (alookup_mem _ _ _ hrev)
  rcases hcl : alookup s.connections uid with _ | set0
  · rw [hcl] at hws0
    simp at hws0
  rw [hcl, Option.getD_some] at hws0
  have huid : uid ≠ [] := (hfwd (uid, set0) (alookup_mem _ _ _ hcl)).1
  have hset0nd : set0.Nodup := (hfwd (uid, set0) (alookup_mem _ _ _ hcl)).2.2.1
  have hrev0 : ∀ w ∈ set0, alookup s.websocketToUser w = some uid :=
    (hfwd (uid, set0) (alookup_mem _ _ _ hcl)).2.2.2
  have hg : uid ≠ [] ∧ (alookup s.connections uid).isSome = true :=
    ⟨huid, by rw [hcl]; rfl⟩
  obtain ⟨b, hb⟩ := disconnect_eq_some s ws uid hrev hg
  rw [hb, hcl]
  simp only [Option.getD_some]
  have holdfwd : ∀ p ∈ s.connections, p.1 ≠ uid →
      p.1 ≠ [] ∧ p.2 ≠ [] ∧ p.2.Nodup ∧
      ∀ w ∈ p.2, alookup (aremove s.websocketToUser ws) w = some p.1 := by
    intro p hp hpne
    obtain ⟨p1, p2, p3, p4⟩ := hfwd p hp
    refine ⟨p1, p2, p3, fun w hw => ?_⟩
    by_cases hwe : w = ws
    · exfalso
      subst hwe
      have h5 := p4 w hw
      rw [hrev] at h5
      exact hpne (Option.some.inj h5).symm
    · rw [alookup_aremove_ne _ _ _ hwe]
      exact p4 w hw
  by_cases hns : set0.filter (fun w => w ≠ ws) = []
  · rw [if_pos hns]
    refine ⟨⟨?_, ?_, ?_, ?_⟩, trivial, ?_, ?_⟩
    · intro p hp
      obtain ⟨hp1, hp2⟩ := mem_aremove_of_nodup _ _ _ hndc hp
      exact holdfwd p hp1 hp2
    · intro q hq
      obtain ⟨hq1, hq2⟩ := mem_aremove_of_nodup _ _ _ hndr hq
      have h0 := hbwd q hq1
      by_cases hqu : q.2 = uid
      · exfalso
        rw [hqu, hcl, Option.getD_some] at h0
        have : q.1 ∈ set0.filter (fun w => w ≠ ws) :=
          List.mem_filter.mpr ⟨h0, decide_eq_true hq2⟩
        rw [hns] at this
        simp at this
      · rw [alookup_aremove_ne _ _ _ hqu]
        exact h0
    · exact nodup_fst_aremove _ _ hndc
    · exact nodup_fst_aremove _ _ hndr
    · rw [alookup_aremove_self _ _ hndc, hns]
      rfl
    · intro u hu
      exact alookup_aremove_ne _ _ _ hu
  · rw [if_neg hns]
    refine ⟨⟨?_, ?_, ?_, ?_⟩, trivial, ?_, ?_⟩
    · intro p hp
      rcases mem_aset_of_nodup _ _ _ _ hndc hp with hpe | ⟨hp1, hp2⟩
      · subst hpe
        refine ⟨huid, hns, hset0nd.filter _, fun w hw => ?_⟩
        obtain ⟨hw1, hw2⟩ := List.mem_filter.mp hw
        have hwne : w ≠ ws := of_decide_eq_true hw2
        rw [alookup_aremove_ne _ _ _ hwne]
        exact hrev0 w hw1
      · exact holdfwd p hp1 hp2
    · intro q hq
      obtain ⟨hq1, hq2⟩ := mem_aremove_of_nodup _ _ _ hndr hq
      have h0 := hbwd q hq1
      by_cases hqu : q.2 = uid
      · rw [hqu, alookup_aset_self]
        rw [hqu, hcl, Option.getD_some] at h0
        simp only [Option.getD_some]
        exact List.mem_filter.mpr ⟨h0, decide_eq_true hq2⟩
      · rw [alookup_aset_ne _ _ _ _ hqu]
        exact h0
    · exact nodup_fst_aset _ _ _ hndc
    · exact nodup_fst_aremove _ _ hndr
    · rw [alookup_aset_self]
      rfl
    · intro u hu
      exact alookup_aset_ne _ _ _ _ hu

theorem connect_inv (s : CMState) (ws : Nat) (uid : PyStr) (hInv : Inv s)
    (huid : uid ≠ [])
    (hfresh : ∀ u, alookup s.websocketToUser ws = some u → u = uid) :
    Inv (ConnectionManager.connect s ws uid).1 := by
  obtain ⟨hfwd, hbwd, hndc, hndr⟩ := hInv
  have hsub : ∀ w ∈ (alookup s.connections uid).getD [],
      alookup s.websocketToUser w = some uid := by
    intro w hw
    rcases hcu : alookup s.connections uid with _ | cur0
    · rw [hcu] at hw
      simp at hw
    · rw [hcu, Option.getD_some] at hw
      exact (hfwd (uid, cur0) (alookup_mem _ _ _ hcu)).2.2.2 w hw
  have hndcur : ((alookup s.connections uid).getD []).Nodup := by
    rcases hcu : alookup s.connections uid with _ | cur0
    · simp
    · simp only [Option.getD_some]
      exact (hfwd (uid, cur0) (alookup_mem _ _ _ hcu)).2.2.1
  have key : ∀ b : Bool, Inv ⟨aset s.connections uid
      (if ws ∈ (alookup s.connections uid).getD []
       then (alookup s.connections uid).getD []
       else (alookup s.connections uid).getD [] ++ [ws]),
      aset s.websocketToUser ws uid, b⟩ := by
    intro b
    refine ⟨?_, ?_, ?_, ?_⟩
    · intro p hp
      rcases mem_aset_of_nodup _ _ _ _ hndc hp with hpe | ⟨hp1, hp2⟩
      · subst hpe
        refine ⟨huid, ?_, ?_, ?_⟩
        · simp only []
          split
          · rename_i hin
            exact List.ne_nil_of_mem hin
          · simp
        · simp only []
          split
          · exact hndcur
          · rename_i hnin
            rw [List.nodup_append]
            refine ⟨hndcur, List.nodup_singleton _, ?_⟩
            intro a ha hb
            rw [List.mem_singleton] at hb
            subst hb
            exact hnin ha
        · intro w hw
          simp only [] at hw
          by_cases hwe : w = ws
          · subst hwe
            exact alookup_aset_self _ _ _
          · rw [alookup_aset_ne _ _ _ _ hwe]
            apply hsub
            split at hw
            · exact hw
            · rcases List.mem_append.mp hw with h | h
              · exact h
              · exact absurd (List.mem_singleton.mp h) hwe
      · obtain ⟨p1, p2, p3, p4⟩ := hfwd p hp1
        refine ⟨p1, p2, p3, fun w hw => ?_⟩
        have hwe : w ≠ ws := by
          intro he
          subst he
          exact hp2 (hfresh p.1 (p4 w hw))
        rw [alookup_aset_ne _ _ _ _ hwe]
        exact p4 w hw
    · intro q hq
      rcases mem_aset_of_nodup _ _ _ _ hndr hq with hqe | ⟨hq1, hq2⟩
      · subst hqe
        simp only []
        rw [alookup_aset_self, Option.getD_some]
        split
        · rename_i hin
          exact hin
        · exact List.mem_append_right _ (List.mem_singleton.mpr rfl)
      · have h0 := hbwd q hq1
        by_cases hqu : q.2 = uid
        · rw [hqu, alookup_aset_self, Option.getD_some]
          rw [hqu] at h0
          split
          · exact h0
          · exact List.mem_append_left _ h0
        · rw [alookup_aset_ne _ _ _ _ hqu]
          exact h0
    · exact nodup_fst_aset _ _ _ hndc
    · exact nodup_fst_aset _ _ _ hndr
  simp only [ConnectionManager.connect]
  split
  · exact key true
  · exact key s.running

theorem disconnect_inv (s : CMState) (ws : Nat) (h : Inv s) :
    Inv (ConnectionManager.disconnect s ws).1 := by
  rcases hrev : alookup s.websocketToUser ws with _ | uid
  · obtain ⟨h1, h2⟩ := disconnect_none s ws hrev
    simp only [Inv] at h ⊢
    rw [h1, h2]
    exact h
  · exact (disconnect_some s ws uid h hrev).1

theorem foldl_disconnect_inv : ∀ (l : List Nat) (p : CMState × List KAEvent),
    Inv p.1 → Inv ((sendLoop l p).1) := by
  intro l
  induction l with
  | nil => intro p h; exact h
  | cons w t ih =>
    intro p h
    rw [sendLoop, List.foldl_cons]
    exact ih _ (disconnect_inv _ _ h)

theorem sendToUser_inv (s : CMState) (uid : PyStr) (ok : Nat → Bool)
    (h : Inv s) : Inv (ConnectionManager.sendToUser s uid ok).1 := by
  rcases hc : alookup s.connections uid with _ | conns <;>
    simp only [ConnectionManager.sendToUser, hc]
  · exact h
  · exact foldl_disconnect_inv _ (s, []) h

/-- Folding `disconnect` over duplicate-free sockets of one user removes
exactly those sockets from both maps and nothing else. -/
theorem sendLoop_spec (uid : PyStr) :
    ∀ (F : List Nat) (t : CMState) (acc : List KAEvent), Inv t → F.Nodup →
    (∀ w ∈ F, alookup t.websocketToUser w = some uid) →
    Inv (sendLoop F (t, acc)).1 ∧
    (∀ w, w ∉ F →
      alookup (sendLoop F (t, acc)).1.websocketToUser w = alookup t.websocketToUser w) ∧
    (∀ u, u ≠ uid →
      alookup (sendLoop F (t, acc)).1.connections u = alookup t.connections u) ∧
    (∀ w, w ∉ F →
      (w ∈ (alookup (sendLoop F (t, acc)).1.connections uid).getD [] ↔
       w ∈ (alookup t.connections uid).getD [])) ∧
    (∀ w ∈ F, alookup (sendLoop F (t, acc)).1.websocketToUser w = none ∧
      w ∉ (alookup (sendLoop F (t, acc)).1.connections uid).getD []) := by
  intro F
  induction F with
  | nil =>
    intro t acc hInv _ _
    exact ⟨hInv, fun w _ => rfl, fun u _ => rfl, fun w _ => Iff.rfl,
      fun w hw => absurd hw (by simp)⟩
  | cons w0 F ih =>
    intro t acc hInv hnd hrev
    rw [List.nodup_cons] at hnd
    have hrev0 : alookup t.websocketToUser w0 = some uid := hrev w0 (List.mem_cons_self _ _)
    have hndr : (t.websocketToUser.map Prod.fst).Nodup := hInv.2.2.2
    obtain ⟨hI1, hR1, hS1, hO1⟩ := disconnect_some t w0 uid hInv hrev0
    have hstep : sendLoop (w0 :: F) (t, acc) =
        sendLoop F ((ConnectionManager.disconnect t w0).1,
          acc ++ (ConnectionManager.disconnect t w0).2) := by
      rw [sendLoop, sendLoop, List.foldl_cons]
    have hrevF : ∀ w ∈ F, alookup (ConnectionManager.disconnect t w0).1.websocketToUser w =
        some uid := by
      intro w hw
      have hwne : w ≠ w0 := fun he => hnd.1 (he ▸ hw)
      rw [hR1, alookup_aremove_ne _ _ _ hwne]
      exact hrev w (List.mem_cons_of_mem _ hw)
    obtain ⟨ih1, ih2, ih3, ih4, ih5⟩ := ih (ConnectionManager.disconnect t w0).1
      (acc ++ (ConnectionManager.disconnect t w0).2) hI1 hnd.2 hrevF
    rw [hstep]
    refine ⟨ih1, ?_, ?_, ?_, ?_⟩
    · intro w hw
      have hwF : w ∉ F := fun h => hw (List.mem_cons_of_mem _ h)
      have hwne : w ≠ w0 := fun he => hw (he ▸ List.mem_cons_self _ _)
      rw [ih2 w hwF, hR1, alookup_aremove_ne _ _ _ hwne]
    · intro u hu
      rw [ih3 u hu, hO1 u hu]
    · intro w hw
      have hwF : w ∉ F := fun h => hw (List.mem_cons_of_mem _ h)
      have hwne : w ≠ w0 := fun he => hw (he ▸ List.mem_cons_self _ _)
      rw [ih4 w hwF, hS1]
      constructor
      · intro h
        exact (List.mem_filter.mp h).1
      · intro h
        exact List.mem_filter.mpr ⟨h, decide_eq_true hwne⟩
    · intro w hw
      rcases List.mem_cons.mp hw with he | hF
      · subst he
        refine ⟨?_, ?_⟩
        · rw [ih2 w hnd.1, hR1]
          exact alookup_aremove_self _ _ hndr
        · intro hmem
          have := (ih4 w hnd.1).mp hmem
          rw [hS1] at this
          exact absurd rfl (of_decide_eq_true (List.mem_filter.mp this).2)
      · exact ih5 w hF

/-! ## The claims -/
/-- C1: for every string token and every verification time,
`decode_access_token` returns a payload P if and only if the token has
exactly three dot-separated segments, the header-dot-payload message
encodes to bytes, the padded signature segment leniently base64-decodes
to exactly the HMAC-SHA256 of that message under the key, the padded
payload segment base64-decodes and parses as the JSON object P, and P's
exp claim (a number, booleans counting as integers, defaulting to 0
when absent) is at least — not strictly greater than — the verification
time: the source tests `payload.get("exp", 0) < time.time()`, so a
token whose exp equals the current time verifies successfully, contrary
to the spec's strict inequality.  In particular a wrong segment count
or a byte-level signature mismatch always yields `none` (stated
separately below), and on tokens issued by `create_access_token` the
expiry boundary is exact. -/
theorem c1_decode_characterization :
    (∀ (key : Bytes) (tok : PyStr) (now : ℚ), (splitOnDot tok).length ≠ 3 →
      decode_access_token key tok now = none) ∧
    (∀ (key : Bytes) (tok : PyStr) (now : ℚ) (payload : JsonObj),
      decode_access_token key tok now = some payload ↔
      ∃ h64 p64 s64 mb sig pb,
        splitOnDot tok = [h64, p64, s64] ∧
        utf8Encode (h64 ++ 46 :: p64) = some mb ∧
        b64decodeLenient (b64pad s64) = some sig ∧
        hmacSha256 key mb = sig ∧
        b64decodeLenient (b64pad p64) = some pb ∧
        jsonLoadsBytes pb = some (.obj payload) ∧
        ((JsonObj.lookup (strLit "exp") payload = none ∧ ¬(0 < now)) ∨
         (∃ v q, JsonObj.lookup (strLit "exp") payload = some v ∧
           jsonAsNum v = some q ∧ ¬(q < now)))) ∧
    (∀ (key : Bytes) (tok : PyStr) (now : ℚ) (h64 p64 s64 : PyStr) (mb sig : Bytes),
      splitOnDot tok = [h64, p64, s64] →
      utf8Encode (h64 ++ 46 :: p64) = some mb →
      b64decodeLenient (b64pad s64) = some sig →
      hmacSha256 key mb ≠ sig →
      decode_access_token key tok now = none) ∧
    (∀ (key : Bytes) (data : JsonObj) (delta : Option ℚ) (now now' : ℚ),
      JsonObj.wf data = true → data.keys.Nodup →
      decode_access_token key (jwtToken data delta now key) now' =
        if (pyInt (now + ttlOf delta) : ℚ) < now' then none
        else some (tokenPayload data delta now)) := by
  refine ⟨?_, ?_, ?_, ?_⟩
  · intro key tok now h
    rw [decode_access_token]
    rcases hs : splitOnDot tok with _ | ⟨a, _ | ⟨b, _ | ⟨c, _ | ⟨d, t⟩⟩⟩⟩
    · rfl
    · rfl
    · rfl
    · exact absurd (by rw [hs]; rfl) h
    · rfl
  · intro key tok now payload
    constructor
    · intro h
      rw [decode_access_token] at h
      rcases hs : splitOnDot tok with _ | ⟨a, _ | ⟨b, _ | ⟨c, _ | ⟨d, t⟩⟩⟩⟩ <;>
        simp only [hs] at h
      · exact absurd h (by simp)
      · exact absurd h (by simp)
      · exact absurd h (by simp)
      · rcases hmb : utf8Encode (a ++ 46 :: b) with _ | mb <;>
          simp only [hmb, Option.none_bind, Option.some_bind] at h
        · exact absurd h (by simp)
        rcases hsig : b64decodeLenient (b64pad c) with _ | sig <;>
          simp only [hsig, Option.none_bind, Option.some_bind] at h
        · exact absurd h (by simp)
        by_cases hmac : hmacSha256 key mb = sig
        · rw [if_pos hmac] at h
          rcases hpb : b64decodeLenient (b64pad b) with _ | pb <;>
            simp only [hpb, Option.none_bind, Option.some_bind] at h
          · exact absurd h (by simp)
          rcases hloads : jsonLoadsBytes pb with _ | (_ | _ | _ | _ | _ | o) <;>
            simp only [hloads] at h
          · exact absurd h (by simp)
          · exact absurd h (by simp)
          · exact absurd h (by simp)
          · exact absurd h (by simp)
          · exact absurd h (by simp)
          · exact absurd h (by simp)
          simp only [expCheck] at h
          rcases hexp : JsonObj.lookup (strLit "exp") o with _ | v <;>
            simp only [hexp] at h
          · by_cases h0 : 0 < now
            · rw [if_pos h0] at h
              exact absurd h (by simp)
            · rw [if_neg h0] at h
              obtain ho := Option.some.inj h
              subst ho
              exact ⟨a, b, c, mb, sig, pb, rfl, hmb, hsig, hmac, hpb, hloads,
                Or.inl ⟨hexp, h0⟩⟩
          · rcases hq : jsonAsNum v with _ | q <;>
              simp only [hq, Option.none_bind, Option.some_bind] at h
            · exact absurd h (by simp)
            by_cases hlt : q < now
            · rw [if_pos hlt] at h
              exact absurd h (by simp)
            · rw [if_neg hlt] at h
              obtain ho := Option.some.inj h
              subst ho
              exact ⟨a, b, c, mb, sig, pb, rfl, hmb, hsig, hmac, hpb, hloads,
                Or.inr ⟨v, q, hexp, hq, hlt⟩⟩
        · rw [if_neg hmac] at h
          exact absurd h (by simp)
      · exact absurd h (by simp)
    · rintro ⟨a, b, c, mb, sig, pb, hs, hmb, hsig, hmac, hpb, hloads, hexp⟩
      rw [decode_access_token, hs]
      simp only [hmb, Option.some_bind, hsig, if_pos hmac, hpb, hloads, expCheck]
      rcases hexp with ⟨hnone, h0⟩ | ⟨v, q, hv, hq, hlt⟩
      · simp only [hnone]
        rw [if_neg h0]
      · simp only [hv, hq, Option.some_bind]
        rw [if_neg hlt]
  · intro key tok now h64 p64 s64 mb sig hs hmb hsig hne
    rw [decode_access_token, hs]
    simp only [hmb, Option.some_bind, hsig, if_neg hne]
  · intro key data delta now now' hwf hnd
    exact decode_jwtToken data delta now now' key hwf hnd

/-- C1 witness: the empty claims dict issued at time 0 with the default
ttl still verifies at time 1800 (the expiry boundary). -/
theorem c1_witness :
    decode_access_token [] (jwtToken JsonObj.nil none 0 []) 1800 =
      some (tokenPayload JsonObj.nil none 0) := by
  have h := c1_decode_characterization.2.2.2 [] JsonObj.nil none 0 1800 (by decide) (by decide)
  rw [h, if_neg]
  rw [ttlOf_none, show (0 : ℚ) + 1800 = ((1800 : ℤ) : ℚ) by norm_num, pyInt_ofInt]
  norm_num

/-- C1 counterexample to the spec's strict inequality: a token issued at
time 0 with a 1800-second ttl carries `exp = 1800` and still verifies at
time 1800, where the spec demands failure. -/
theorem c1_counterexample :
    JsonObj.lookup (strLit "exp")
      (tokenPayload (JsonObj.cons (strLit "sub") (.str (strLit "user-42")) JsonObj.nil)
        (some 1800) 0) = some (.num 1800) ∧
    decode_access_token (strLit "secret")
      (jwtToken (JsonObj.cons (strLit "sub") (.str (strLit "user-42")) JsonObj.nil)
        (some 1800) 0 (strLit "secret")) 1800 =
      some (tokenPayload (JsonObj.cons (strLit "sub") (.str (strLit "user-42")) JsonObj.nil)
        (some 1800) 0) := by
  constructor
  · have h := tokenPayload_lookup_exp
      (JsonObj.cons (strLit "sub") (.str (strLit "user-42")) JsonObj.nil) (some 1800) 0
      (by decide)
    rw [h]
    have h2 : pyInt (0 + ttlOf (some 1800)) = 1800 := by
      rw [ttlOf_some 1800 (by norm_num),
        show (0 : ℚ) + 1800 = ((1800 : ℤ) : ℚ) by norm_num, pyInt_ofInt]
    rw [h2]
  · have h := decode_jwtToken
      (JsonObj.cons (strLit "sub") (.str (strLit "user-42")) JsonObj.nil) (some 1800) 0 1800
      (strLit "secret") (by decide) (by decide)
    rw [h, if_neg]
    rw [ttlOf_some 1800 (by norm_num),
      show (0 : ℚ) + 1800 = ((1800 : ℤ) : ℚ) by norm_num, pyInt_ofInt]
    norm_num

/-- C2: a token issued by `create_access_token` with the default ttl
verifies at its issuing instant with the same secret, for every
well-formed claims dict and every key, and the returned payload keeps
every key of the input plus `exp` and `iat`. -/
theorem c2_verify_issue (data : JsonObj) (key : Bytes) (now : ℚ)
    (hwf : JsonObj.wf data = true) (hnd : data.keys.Nodup) :
    ∃ tok, create_access_token data none now key = some tok ∧
      ∃ payload, decode_access_token key tok now = some payload ∧
        (∀ k ∈ data.keys, k ∈ payload.keys) ∧
        strLit "exp" ∈ payload.keys ∧ strLit "iat" ∈ payload.keys := by
  refine ⟨jwtToken data none now key, create_eq data none now key,
    tokenPayload data none now, ?_, ?_, ?_, ?_⟩
  · rw [decode_jwtToken data none now now key hwf hnd, if_neg]
    rw [ttlOf_none]
    exact pyInt_not_lt now 1800 (by norm_num)
  · intro k hk
    exact mem_keys_set_of_mem _ _ _ _ (mem_keys_set_of_mem _ _ _ _ hk)
  · exact mem_keys_set_of_mem _ _ _ _ (mem_keys_set_self _ _ _)
  · exact mem_keys_set_self _ _ _

/-- C2 witness at a concrete claims dict, secret and instant. -/
theorem c2_witness :
    ∃ tok, create_access_token
        (JsonObj.cons (strLit "sub") (.str (strLit "user-42")) JsonObj.nil) none 0
        (strLit "k") = some tok ∧
      ∃ payload, decode_access_token (strLit "k") tok 0 = some payload ∧
        (∀ k ∈ (JsonObj.cons (strLit "sub") (.str (strLit "user-42")) JsonObj.nil).keys,
          k ∈ payload.keys) ∧
        strLit "exp" ∈ payload.keys ∧ strLit "iat" ∈ payload.keys :=
  c2_verify_issue (JsonObj.cons (strLit "sub") (.str (strLit "user-42")) JsonObj.nil)
    (strLit "k") 0 (by decide) (by decide)

/-- C3: on an invariant-satisfying registry, `send_to_user` returns 0
without error for an unknown user, returns the number of successful
deliveries, unregisters every failed socket from both maps and keeps
every successful socket registered; with two sockets of one user it
returns 2 when both succeed and 1 when one fails, the failed one being
removed.  (The invariant excludes the empty user id, for which the
removal of failed sockets from the forward map silently fails — see the
counterexample.) -/
theorem c3_send_to_user :
    (∀ (s : CMState) (uid : PyStr) (ok : Nat → Bool), alookup s.connections uid = none →
      ConnectionManager.sendToUser s uid ok = (s, 0, [])) ∧
    (∀ (s : CMState) (uid : PyStr) (ok : Nat → Bool) (conns : List Nat),
      Inv s → alookup s.connections uid = some conns →
      (ConnectionManager.sendToUser s uid ok).2.1 = (conns.filter ok).length ∧
      (∀ w ∈ conns, ok w = false →
        alookup (ConnectionManager.sendToUser s uid ok).1.websocketToUser w = none ∧
        w ∉ (alookup (ConnectionManager.sendToUser s uid ok).1.connections uid).getD []) ∧
      (∀ w ∈ conns, ok w = true →
        alookup (ConnectionManager.sendToUser s uid ok).1.websocketToUser w = some uid ∧
        w ∈ (alookup (ConnectionManager.sendToUser s uid ok).1.connections uid).getD [])) ∧
    (ConnectionManager.sendToUser twoConnState (strLit "u") (fun _ => true)).2.1 = 2 ∧
    (ConnectionManager.sendToUser twoConnState (strLit "u") (fun w => w = 2)).2.1 = 1 ∧
    alookup (ConnectionManager.sendToUser twoConnState (strLit "u")
      (fun w => w = 2)).1.websocketToUser 1 = none ∧
    alookup (ConnectionManager.sendToUser twoConnState (strLit "u")
      (fun w => w = 2)).1.connections (strLit "u") = some [2] := by
  refine ⟨?_, ?_, by decide, by decide, by decide, by decide⟩
  · intro s uid ok hc
    simp only [ConnectionManager.sendToUser, hc]
  · intro s uid ok conns hInv hc
    have hmem := alookup_mem _ _ _ hc
    have hndconns : conns.Nodup := (hInv.1 _ hmem).2.2.1
    have hrevall : ∀ w ∈ conns, alookup s.websocketToUser w = some uid :=
      (hInv.1 _ hmem).2.2.2
    have hfnd : (conns.filter (fun w => ok w = false)).Nodup := hndconns.filter _
    have hfrev : ∀ w ∈ conns.filter (fun w => ok w = false),
        alookup s.websocketToUser w = some uid :=
      fun w hw => hrevall w (List.mem_filter.mp hw).1
    obtain ⟨sp1, sp2, sp3, sp4, sp5⟩ :=
      sendLoop_spec uid (conns.filter (fun w => ok w = false)) s [] hInv hfnd hfrev
    have hEq : ConnectionManager.sendToUser s uid ok =
        ((sendLoop (conns.filter (fun w => ok w = false)) (s, [])).1,
         (conns.filter ok).length,
         (sendLoop (conns.filter (fun w => ok w = false)) (s, [])).2) := by
      simp only [ConnectionManager.sendToUser, hc, sendLoop]
    rw [hEq]
    refine ⟨rfl, ?_, ?_⟩
    · intro w hw hok
      exact sp5 w (List.mem_filter.mpr ⟨hw, decide_eq_true hok⟩)
    · intro w hw hok
      have hnf : w ∉ conns.filter (fun w => ok w = false) := by
        intro hwf
        have h2 := of_decide_eq_true (List.mem_filter.mp hwf).2
        rw [hok] at h2
        exact Bool.noConfusion h2
      refine ⟨?_, ?_⟩
      · rw [sp2 w hnf]
        exact hrevall w hw
      · rw [sp4 w hnf, hc, Option.getD_some]
        exact hw

/-- C3 witness: the general clause applied to the two-socket registry
with every delivery succeeding. -/
theorem c3_witness :
    (ConnectionManager.sendToUser twoConnState (strLit "u") (fun _ => true)).2.1 =
      (([1, 2].filter (fun _ => true)).length) :=
  (c3_send_to_user.2.1 twoConnState (strLit "u") (fun _ => true) [1, 2]
    (by decide) (by decide)).1

/-- C3 counterexample to the original wording: after `connect` with the
empty (falsy) user id, a failed delivery leaves the socket in the
forward map — `disconnect` pops the reverse entry but the
`if user_id and ...` guard skips the forward removal. -/
theorem c3_counterexample :
    (ConnectionManager.sendToUser (ConnectionManager.connect initState 3 []).1 []
      (fun _ => false)).2.1 = 0 ∧
    alookup (ConnectionManager.sendToUser (ConnectionManager.connect initState 3 []).1 []
      (fun _ => false)).1.websocketToUser 3 = none ∧
    3 ∈ (alookup (ConnectionManager.sendToUser (ConnectionManager.connect initState 3 []).1 []
      (fun _ => false)).1.connections []).getD [] := by
  decide

/-- C4: `disconnect` and `send_to_user` preserve the registry invariant
unconditionally, and `connect` preserves it provided the user id is
truthy and the socket is not already registered to a different user;
the invariant implies the spec's two-map consistency, and holds of the
fresh registry.  (Without those two conditions `connect`'s re-binding
and the empty user id break the consistency — see the counterexample.) -/
theorem c4_invariant_preserved :
    (∀ (s : CMState) (ws : Nat) (uid : PyStr), Inv s → uid ≠ [] →
      (∀ u, alookup s.websocketToUser ws = some u → u = uid) →
      Inv (ConnectionManager.connect s ws uid).1) ∧
    (∀ (s : CMState) (ws : Nat), Inv s → Inv (ConnectionManager.disconnect s ws).1) ∧
    (∀ (s : CMState) (uid : PyStr) (ok : Nat → Bool), Inv s →
      Inv (ConnectionManager.sendToUser s uid ok).1) ∧
    (∀ s : CMState, Inv s → MapsConsistent s) ∧
    Inv initState :=
  ⟨connect_inv, disconnect_inv, sendToUser_inv, inv_consistent, by decide⟩

/-- C4 witness: a first connection with a truthy user id preserves the
invariant. -/
theorem c4_witness : Inv (ConnectionManager.connect initState 1 (strLit "a")).1 :=
  c4_invariant_preserved.1 initState 1 (strLit "a") (by decide) (by decide)
    (fun u h => by simp [initState, alookup] at h)

/-- C4 counterexample to the original wording: re-connecting a
registered socket under a new user id, and disconnecting a socket of the
empty user id, each turn a consistent registry into an inconsistent
one. -/
theorem c4_counterexample :
    MapsConsistent (ConnectionManager.connect initState 1 (strLit "a")).1 ∧
    ¬ MapsConsistent (ConnectionManager.connect
      (ConnectionManager.connect initState 1 (strLit "a")).1 1 (strLit "b")).1 ∧
    MapsConsistent (ConnectionManager.connect initState 3 []).1 ∧
    ¬ MapsConsistent (ConnectionManager.disconnect
      (ConnectionManager.connect initState 3 []).1 3).1 := by
  decide

/-- C5: `decode_access_token` is total with the single failure value
`none`: every input either yields the claims object or `none`, and the
malformed inputs of the spec — the empty string, two segments, four
segments, and a non-base64 signature segment — all yield that same
`none`, indistinguishable from a signature or expiry failure. -/
theorem c5_decode_total (key : Bytes) (now : ℚ) :
    (∀ tok : PyStr, (∃ p, decode_access_token key tok now = some p) ∨
      decode_access_token key tok now = none) ∧
    decode_access_token key (strLit "") now = none ∧
    decode_access_token key (strLit "a.b") now = none ∧
    decode_access_token key (strLit "a.b.c.d") now = none ∧
    decode_access_token key (strLit "a.b.!!") now = none := by
  refine ⟨?_, rfl, rfl, rfl, ?_⟩
  · intro tok
    cases h : decode_access_token key tok now with
    | some p => exact Or.inl ⟨p, rfl⟩
    | none => exact Or.inr rfl
  · have h1 : splitOnDot (strLit "a.b.!!") = [[97], [98], [33, 33]] := by decide
    rw [decode_access_token, h1]
    have h2 : utf8Encode ([97] ++ 46 :: [98]) = some [97, 46, 98] := by decide
    have h3 : b64decodeLenient (b64pad [33, 33]) = some [] := by decide
    simp only [h2, h3, Option.some_bind]
    rw [if_neg]
    intro hh
    have hl := hmac_length key [97, 46, 98]
    rw [hh] at hl
    simp at hl

/-- C6: issuing a token for claims sub = user-42 with a 1800-second ttl
at any nonnegative instant and verifying it at that same instant yields
a payload with that sub and with exp minus iat exactly 1800. -/
theorem c6_scenario (now : ℚ) (key : Bytes) (h0 : 0 ≤ now) :
    ∃ tok, create_access_token
        (JsonObj.cons (strLit "sub") (.str (strLit "user-42")) JsonObj.nil)
        (some 1800) now key = some tok ∧
      ∃ payload, decode_access_token key tok now = some payload ∧
        JsonObj.lookup (strLit "sub") payload = some (.str (strLit "user-42")) ∧
        ∃ e i : ℤ, JsonObj.lookup (strLit "exp") payload = some (.num e) ∧
          JsonObj.lookup (strLit "iat") payload = some (.num i) ∧ e - i = 1800 := by
  have httl : ttlOf (some 1800) = 1800 := ttlOf_some 1800 (by norm_num)
  refine ⟨_, create_eq _ (some 1800) now key,
    tokenPayload (JsonObj.cons (strLit "sub") (.str (strLit "user-42")) JsonObj.nil)
      (some 1800) now, ?_, ?_, ?_⟩
  · rw [decode_jwtToken _ (some 1800) now now key (by decide) (by decide), if_neg]
    rw [httl]
    exact pyInt_not_lt now 1800 (by norm_num)
  · rw [tokenPayload_lookup_other _ (some 1800) now (strLit "sub") (by decide) (by decide)]
    rfl
  · refine ⟨pyInt (now + ttlOf (some 1800)), pyInt now,
      tokenPayload_lookup_exp _ (some 1800) now (by decide),
      tokenPayload_lookup_iat _ (some 1800) now (by decide), ?_⟩
    rw [httl]
    have hfl : pyInt (now + 1800) = pyInt now + 1800 := by
      rw [pyInt, pyInt, if_pos (by linarith), if_pos h0,
        show (1800 : ℚ) = ((1800 : ℤ) : ℚ) by norm_num, Int.floor_add_int]
    omega

/-- C6 witness at instant 0 with the empty key. -/
theorem c6_witness :
    ∃ tok, create_access_token
        (JsonObj.cons (strLit "sub") (.str (strLit "user-42")) JsonObj.nil)
        (some 1800) 0 [] = some tok ∧
      ∃ payload, decode_access_token [] tok 0 = some payload ∧
        JsonObj.lookup (strLit "sub") payload = some (.str (strLit "user-42")) ∧
        ∃ e i : ℤ, JsonObj.lookup (strLit "exp") payload = some (.num e) ∧
          JsonObj.lookup (strLit "iat") payload = some (.num i) ∧ e - i = 1800 :=
  c6_scenario 0 [] (by norm_num)

/-- C7: the keepalive flag is on exactly while the registry is
non-empty, `connect` emits the start event exactly when the loop was
not running (so the loop is never started twice without a stop), and
`disconnect` emits the stop event exactly when it empties the registry
while the loop runs. -/
theorem c7_keepalive :
    (∀ s : CMState, Reachable s → (s.running = true ↔ s.connections ≠ [])) ∧
    (∀ (s : CMState) (ws : Nat) (uid : PyStr),
      (ConnectionManager.connect s ws uid).1.connections ≠ [] ∧
      ((ConnectionManager.connect s ws uid).2 = [KAEvent.start] ↔ s.running = false) ∧
      (s.running = true → (ConnectionManager.connect s ws uid).2 = [])) ∧
    (∀ (s : CMState) (ws : Nat),
      ((ConnectionManager.disconnect s ws).2 = [KAEvent.stop] ↔
        ((ConnectionManager.disconnect s ws).1.connections = [] ∧ s.running = true))) := by
  refine ⟨reach_flag, ?_, ?_⟩
  · intro s ws uid
    simp only [ConnectionManager.connect]
    split
    · rename_i hr
      refine ⟨aset_ne_nil _ _ _, iff_of_true rfl hr, ?_⟩
      intro ht
      rw [hr] at ht
      exact Bool.noConfusion ht
    · rename_i hr
      exact ⟨aset_ne_nil _ _ _, iff_of_false (by simp) hr, fun _ => rfl⟩
  · intro s ws
    simp only [ConnectionManager.disconnect]
    split
    · rename_i hcond
      exact iff_of_true rfl hcond
    · rename_i hcond
      exact iff_of_false (by simp) hcond

/-- C7 witness: the fresh registry satisfies the flag invariant, and
the first connection emits the start event. -/
theorem c7_witness :
    (initState.running = true ↔ initState.connections ≠ []) ∧
    (ConnectionManager.connect initState 5 (strLit "v")).2 = [KAEvent.start] :=
  ⟨c7_keepalive.1 initState Reachable.init,
   (c7_keepalive.2.1 initState 5 (strLit "v")).2.1.mpr rfl⟩

/-- C8: on every reachable registry state, `disconnect` of a socket
with no reverse-map entry is a pure no-op: same forward map, same
reverse map, same flag, no events. -/
theorem c8_disconnect_noop (s : CMState) (ws : Nat) (hr : Reachable s)
    (h : alookup s.websocketToUser ws = none) :
    ConnectionManager.disconnect s ws = (s, []) := by
  have hf := reach_flag s hr
  simp only [ConnectionManager.disconnect, h, aremove_of_none _ _ h]
  rw [if_neg]
  rintro ⟨hc, hrun⟩
  exact (hf.mp hrun) hc

/-- C8 witness: disconnecting a never-registered socket from the fresh
registry changes nothing. -/
theorem c8_witness : ConnectionManager.disconnect initState 0 = (initState, []) :=
  c8_disconnect_noop initState 0 Reachable.init rfl

/-- C9: `create_access_token` always sets `exp` to the value computed
from the current time and ttl and `iat` to the truncated current time,
regardless of any caller-supplied entries under those keys, and leaves
every other key of the input claims unchanged in the encoded payload;
a caller therefore cannot choose the expiry through the input dict. -/
theorem c9_exp_iat_overwrite (data : JsonObj) (delta : Option ℚ) (now : ℚ) (key : Bytes)
    (hnd : data.keys.Nodup) :
    create_access_token data delta now key = some (jwtToken data delta now key) ∧
    JsonObj.lookup (strLit "exp") (tokenPayload data delta now) =
      some (.num (pyInt (now + ttlOf delta))) ∧
    JsonObj.lookup (strLit "iat") (tokenPayload data delta now) =
      some (.num (pyInt now)) ∧
    (∀ k, k ≠ strLit "exp" → k ≠ strLit "iat" →
      JsonObj.lookup k (tokenPayload data delta now) = JsonObj.lookup k data) :=
  ⟨create_eq data delta now key, tokenPayload_lookup_exp data delta now hnd,
   tokenPayload_lookup_iat data delta now hnd,
   fun k h1 h2 => tokenPayload_lookup_other data delta now k h1 h2⟩

/-- C9 witness: a caller-supplied exp of 99 is replaced by the computed
expiry. -/
theorem c9_witness :
    JsonObj.lookup (strLit "exp")
      (tokenPayload (JsonObj.cons (strLit "exp") (.num 99) JsonObj.nil) none 5) =
      some (.num (pyInt (5 + ttlOf none))) :=
  (c9_exp_iat_overwrite (JsonObj.cons (strLit "exp") (.num 99) JsonObj.nil) none 5 []
    (by decide)).2.1

/-- C10: a correctly signed unexpired token whose claims lack `sub`
decodes successfully to its payload as-is, while both consumers —
`get_current_user` and `authenticate_websocket` — reject exactly such a
payload. -/
theorem c10_sub_not_required (delta : Option ℚ) (now now' : ℚ) (key : Bytes)
    (h : ¬ ((pyInt (now + ttlOf delta) : ℚ) < now')) :
    ∃ tok, create_access_token JsonObj.nil delta now key = some tok ∧
      decode_access_token key tok now' = some (tokenPayload JsonObj.nil delta now) ∧
      JsonObj.lookup (strLit "sub") (tokenPayload JsonObj.nil delta now) = none ∧
      getCurrentUserSub key tok now' = none ∧
      authenticateWebsocket key (some tok) now' = none := by
  have hdec : decode_access_token key (jwtToken JsonObj.nil delta now key) now' =
      some (tokenPayload JsonObj.nil delta now) := by
    rw [decode_jwtToken JsonObj.nil delta now now' key (by decide) (by decide), if_neg h]
  have hpay : tokenPayload JsonObj.nil delta now =
      JsonObj.cons (strLit "exp") (.num (pyInt (now + ttlOf delta)))
        (JsonObj.cons (strLit "iat") (.num (pyInt now)) JsonObj.nil) := rfl
  have hsub : JsonObj.lookup (strLit "sub") (tokenPayload JsonObj.nil delta now) = none := by
    rw [tokenPayload_lookup_other JsonObj.nil delta now (strLit "sub") (by decide) (by decide)]
    rfl
  have hdec2 := hdec
  have hsub2 := hsub
  rw [hpay] at hdec2 hsub2
  have hne : jwtToken JsonObj.nil delta now key ≠ [] := by
    rw [jwtToken]
    simp
  refine ⟨jwtToken JsonObj.nil delta now key, create_eq _ _ _ _, hdec, hsub, ?_, ?_⟩
  · simp only [getCurrentUserSub, hdec2, hsub2]
  · simp only [authenticateWebsocket, if_neg hne, hdec2, hsub2]

/-- C10 witness with the default ttl, instant 0, and the empty key. -/
theorem c10_witness :
    ∃ tok, create_access_token JsonObj.nil none 0 [] = some tok ∧
      decode_access_token [] tok 0 = some (tokenPayload JsonObj.nil none 0) ∧
      JsonObj.lookup (strLit "sub") (tokenPayload JsonObj.nil none 0) = none ∧
      getCurrentUserSub [] tok 0 = none ∧
      authenticateWebsocket [] (some tok) 0 = none :=
  c10_sub_not_required none 0 0 []
    (by rw [ttlOf_none]; exact pyInt_not_lt 0 1800 (by norm_num))

end VoiceJournal
